import Mathlib

/-!
Verification development for the pathfinder survey data pipeline.

The Python source is shallowly embedded: pandas data frames become
tables of rows indexed by sample identifier (an association list from
index label to an association list of column cells), the dataclass
containers (`ResultData` / `SurveyData`, whose attribute dictionaries
are iterated in fixed field order) become association lists from
attribute name to table, and each method of
`pathfinder/process/data.py`, `pathfinder/process/cleaners.py`,
`pathfinder/process/trackers.py`, `pathfinder/process/processors.py`
and `pathfinder/utils.py` becomes a Lean function on those values.
Fallible operations (pandas indexing errors, attribute errors) return
`Option`.
-/

namespace Pathfinder

/-- Helper for `uniqueList`: drop every element already seen, keeping
first occurrences. -/
def uniqueAux {α : Type} [DecidableEq α] (seen : List α) : List α → List α
  | [] => []
  | x :: xs =>
    if x ∈ seen then uniqueAux seen xs else x :: uniqueAux (x :: seen) xs

/-- Embeds `pandas.Series(xs).unique()` / `df.index.unique()`: deduplicate a list
keeping the first occurrence of each element, preserving order. -/
def uniqueList {α : Type} [DecidableEq α] (l : List α) : List α :=
  uniqueAux [] l

/-- A pandas cell value: a string, a number (modelled as a rational),
or a null (`NaN`). -/
inductive Value where
  | vstr : String → Value
  | vnum : Rat → Value
  | vnull : Value
deriving DecidableEq, Repr

/-- One data-frame row: an association list from column name to cell. -/
abbrev Row := List (String × Value)

/-- Embeds `row[column]`: the cell of a row at a column, `none` when the column
is absent from the row. -/
def getCell (r : Row) (c : String) : Option Value := r.lookup c

/-- A pandas data frame as used by the containers: a column list and the
rows, each indexed by a sample-identifier label (labels may repeat). -/
structure Table where
  cols : List String
  rows : List (String × Row)
deriving DecidableEq, Repr

/-- Embeds `df.index.tolist()`. -/
def Table.index (t : Table) : List String := t.rows.map Prod.fst

/-- Embeds `df.index.unique().tolist()`. -/
def Table.indexUnique (t : Table) : List String := uniqueList t.index

/-- A `ResultData` dataclass instance: its `__dict__`, an association
list from attribute name to table, iterated in field-declaration order
(`iid`, `fasta`, `fastq`, then the analysis kinds). -/
abbrev Container := List (String × Table)

/-- Rebuild every value of the container through a key-aware function;
this is the shape of every `for attr, df in self: ... setattr(self, attr, ...)`
loop of `ResultData`. -/
def mapVals (f : String → Table → Table) (c : Container) : Container :=
  c.map (fun p => (p.1, f p.1 p.2))

/-- Embeds `setattr(self, a, t)` on a dataclass whose fields include `a`. -/
def setAttr (c : Container) (a : String) (t : Table) : Container :=
  mapVals (fun k u => if k = a then t else u) c

/-- The table built by `ResultData.update_iid`:
`pandas.DataFrame(data={'iid': iids}, index=iids)`. -/
def iidTable (iids : List String) : Table :=
  { cols := ["iid"], rows := iids.map (fun i => (i, [("iid", Value.vstr i)])) }

/-- The identifier list computed inside `ResultData.update_iid`:
`pandas.Series([iid for attr, df in self for iid in df.index.unique().tolist()]).unique()`.
Note the comprehension runs over every attribute of the container,
including the `iid` table itself and the `fasta`/`fastq` path tables. -/
def allIids (c : Container) : List String :=
  uniqueList (c.flatMap (fun p => p.2.indexUnique))

/-- Embeds `ResultData.update_iid` (process/data.py:57-65; identical in
pipelines/data.py with the default `iids=None` argument). -/
def update_iid (c : Container) : Container := setAttr c "iid" (iidTable (allIids c))

/-- Embeds `df.drop(ids, errors='ignore')`: drop every row whose index label is
in `ids`. -/
def dropRows (t : Table) (ids : List String) : Table :=
  { t with rows := t.rows.filter (fun r => r.1 ∉ ids) }

/-- Embeds `df[df.index.isin(ids)]`: keep only the rows whose index label is in
`ids`. -/
def keepRows (t : Table) (ids : List String) : Table :=
  { t with rows := t.rows.filter (fun r => r.1 ∈ ids) }

/-- A `RemovalSet`: mapping from analysis kind to flagged identifiers. -/
abbrev RemovalSet := List (String × List String)

/-- One iteration of the `ResultData.remove` loop: a kind named in the
removal set is dropped (`retain=False`) or kept-only (`retain=True`); a
`KeyError` on the dict lookup leaves the attribute untouched. -/
def removedTable (rd : RemovalSet) (retain : Bool) (a : String) (t : Table) :
    Table :=
  match rd.lookup a with
  | none => t
  | some ids => if retain then keepRows t ids else dropRows t ids

/-- Embeds `ResultData.remove` (pipelines/data.py:68-92): apply the loop to
every attribute, then `update_iid`. The variant in process/data.py:67-83
is exactly the `retain := false` case. -/
def removeOp (c : Container) (rd : RemovalSet) (retain : Bool) : Container :=
  update_iid (mapVals (removedTable rd retain) c)

/-- Embeds `pandas.concat([data, data_other], sort=False)`: rows appended,
columns the union in order of first appearance. -/
def concatTables (t u : Table) : Table :=
  { cols := t.cols ++ u.cols.filter (fun c => c ∉ t.cols),
    rows := t.rows ++ u.rows }

/-- One iteration of the `ResultData.__add__` loop: concatenate the
other container's table at the same attribute onto this slot. -/
def addedTable (other : Container) (a : String) (t : Table) : Table :=
  match other.lookup a with
  | some u => concatTables t u
  | none => t

/-- Embeds `ResultData.__add__` (process/data.py:38-51): concatenate the other
container's table onto each slot, then `update_iid`. -/
def addOp (c other : Container) : Container :=
  update_iid (mapVals (addedTable other) c)

/-- The all-null row `pandas.DataFrame(index=missing, columns=df.columns)`
inserts for a missing identifier. -/
def nullRow (cols : List String) : Row := cols.map (fun c => (c, Value.vnull))

/-- Embeds `subset = df[df.index.isin(iids)]` in `ResultData.subset`. -/
def keptRows (t : Table) (iids : List String) : List (String × Row) :=
  t.rows.filter (fun r => r.1 ∈ iids)

/-- Embeds `missing = list(set(iids).difference(set(subset.index)))` in
`ResultData.subset`; the Python set iteration order is unspecified, here
first-occurrence order. -/
def missingIids (t : Table) (iids : List String) : List String :=
  uniqueList (iids.filter (fun i => i ∉ (keptRows t iids).map Prod.fst))

/-- Body of the `ResultData.subset` loop (process/data.py:122-133): keep
the rows whose identifier was requested, then append one null row per
requested identifier absent from the table. -/
def subsetTable (t : Table) (iids : List String) : Table :=
  { cols := t.cols,
    rows := keptRows t iids ++
      (missingIids t iids).map (fun i => (i, nullRow t.cols)) }

/-- Embeds `ResultData.subset` (process/data.py:110-137) as a value transformer:
every attribute is subset, then `update_iid`. -/
def subsetOp (c : Container) (iids : List String) : Container :=
  update_iid (mapVals (fun _ t => subsetTable t iids) c)

/-- Embeds `data_series = data[column]` viewed as an association list from
index label to cell (a missing cell is a null, as in a frame whose rows
all carry the frame's columns). -/
def colSeries (t : Table) (c : String) : List (String × Value) :=
  t.rows.map (fun p => (p.1, (getCell p.2 c).getD Value.vnull))

/-- Embeds `df[column] = ...` on one row: overwrite the cell when the column
exists, else append the new column's cell. -/
def setCellVal (r : Row) (c : String) (v : Value) : Row :=
  if (r.lookup c).isSome then r.map (fun p => if p.1 = c then (c, v) else p)
  else r ++ [(c, v)]

/-- Embeds `df[column] = df.index.map(data_series)`: write into every row the
series value at the row's index label (null when the label is absent),
appending `column` to the frame's columns when it is new. -/
def writeCol (t : Table) (c : String) (series : List (String × Value)) : Table :=
  { cols := if c ∈ t.cols then t.cols else t.cols ++ [c],
    rows := t.rows.map (fun p =>
      (p.1, setCellVal p.2 c ((series.lookup p.1).getD Value.vnull))) }

/-- The state mutation performed by `ResultData.groupby`
(process/data.py:139-166) with `set_index=False` once the generator is
consumed: `data_series = getattr(self, attr)[column]` is captured, then
`df[column] = df.index.map(data_series)` runs on every table of the
container. An absent attribute raises `AttributeError` (`none`). -/
def groupbyOp (c : Container) (attr col : String) : Option Container :=
  match c.lookup attr with
  | none => none
  | some data => some (mapVals (fun _ t => writeCol t col (colSeries data col)) c)

/-- Embeds `SurveyCleanerSetting.species`: either a string (matched against the
`taxonomy` column) or a numeric taxid (matched against `taxid`). -/
inductive SpeciesFilter where
  | byName : String → SpeciesFilter
  | byTaxid : Rat → SpeciesFilter
deriving DecidableEq, Repr

/-- Embeds `SurveyCleanerSetting` (process/settings.py:20-37); the gene
identity/coverage thresholds are carried but unused by any rule. -/
structure CleanerSettings where
  purity : Rat
  species : Option SpeciesFilter
  contamination : Rat
  gene_identity : Rat
  gene_coverage : Rat
  complete_lineage : Bool
deriving DecidableEq, Repr

/-- The defaults of `SurveyCleanerSetting`. -/
def defaultSettings : CleanerSettings :=
  { purity := 8/10, species := none, contamination := 2/100,
    gene_identity := 9/10, gene_coverage := 9/10, complete_lineage := true }

/-- The `percent` cell of a row as a number; anything else makes the
numeric comparisons of `clean_kraken` and `nlargest` raise. -/
def percentOf (r : Row) : Option Rat :=
  match getCell r "percent" with
  | some (Value.vnum q) => some q
  | _ => none

/-- The row predicate of `g.loc[g['level'] == "S"]`. -/
def isSpeciesRow (r : Row) : Bool :=
  decide (getCell r "level" = some (Value.vstr "S"))

/-- Pair every row of a group with its numeric percent, failing like
pandas when a percent cell is not numeric. -/
def percentPairs : List Row → Option (List (Rat × Row))
  | [] => some []
  | r :: rs =>
    match percentOf r, percentPairs rs with
    | some q, some ps => some ((q, r) :: ps)
    | _, _ => none

/-- Embeds `g.nlargest(3, 'percent')` (keep='first'): stable-sort the rows
descending by percent and take 3. -/
def nlargest3 (g : List Row) : Option (List (Rat × Row)) :=
  (percentPairs g).map
    (fun ps => (ps.insertionSort (fun a b => b.1 ≤ a.1)).take 3)

/-- Embeds `g[column].iloc[0] != self.settings.species` for the configured
species filter; `none` when the column is missing (KeyError). -/
def speciesFlag (sp : SpeciesFilter) (r : Row) : Option Bool :=
  match sp with
  | SpeciesFilter.byName s =>
    (getCell r "taxonomy").map (fun v => decide (v ≠ Value.vstr s))
  | SpeciesFilter.byTaxid q =>
    (getCell r "taxid").map (fun v => decide (v ≠ Value.vnum q))

/-- The purity and contamination appends of the `clean_kraken` group
loop: `k` once when the top percent is below `purity*100`, and once more
when some remaining top-3 percent exceeds `contamination*100`. -/
def condFlags (s : CleanerSettings) (k : String) (tp : Rat × Row)
    (rest : List (Rat × Row)) : List String :=
  (if tp.1 < s.purity * 100 then [k] else []) ++
    (if rest.any (fun p => s.contamination * 100 < p.1) then [k] else [])

/-- One iteration of the `clean_kraken` group loop
(process/cleaners.py:66-91) for the group `g` of sample `k`: restrict to
species-rank rows, take the top 3 by percent, then append `k` once per
triggered condition (purity, contamination, species mismatch). `none`
models the `IndexError` of `g['percent'].iloc[0]` on a group left empty
by the rank restriction, and pandas failures on ill-typed cells. -/
def flagsFor (s : CleanerSettings) (k : String) (g : List Row) :
    Option (List String) :=
  match nlargest3 (g.filter isSpeciesRow) with
  | none => none
  | some [] => none
  | some (tp :: rest) =>
    match s.species with
    | none => some (condFlags s k tp rest)
    | some sp =>
      match speciesFlag sp tp.2 with
      | none => none
      | some m => some (condFlags s k tp rest ++ (if m then [k] else []))

/-- The rows of the group of sample `k` in
`isolates = data.groupby(by=data.index)`. -/
def sampleGroup (t : Table) (k : String) : List Row :=
  (t.rows.filter (fun r => r.1 = k)).map Prod.snd

/-- The flagging condition of `clean_kraken` for one sample group: among
the top-3 species-rank rows by percent, the top percent is below
`purity*100`, or some remaining percent exceeds `contamination*100`, or
a required species is configured and the top row mismatches it. -/
def FlagCond (s : CleanerSettings) (g : List Row) : Prop :=
  ∃ tp rest, nlargest3 (g.filter isSpeciesRow) = some (tp :: rest) ∧
    (tp.1 < s.purity * 100 ∨
     (∃ p ∈ rest, s.contamination * 100 < p.1) ∨
     (∃ sp, s.species = some sp ∧ speciesFlag sp tp.2 = some true))

/-- The group keys of `data.groupby(by=data.index)`: the distinct index
labels in sorted order (pandas `sort=True`). -/
def groupKeys (t : Table) : List String :=
  (uniqueList t.index).insertionSort (fun a b => a ≤ b)

/-- The `for _, g in isolates` loop of `clean_kraken`: visit the sample
groups in key order, appending each group's flags to `to_remove`; the
first pandas error aborts the call. -/
def collectFlags (s : CleanerSettings) (t : Table) :
    List String → Option (List String)
  | [] => some []
  | k :: ks =>
    match flagsFor s k (sampleGroup t k), collectFlags s t ks with
    | some fl, some rem => some (fl ++ rem)
    | _, _ => none

/-- Embeds `Cleaner.clean_kraken` (process/cleaners.py:31-95): run the group
loop over every sample group and deduplicate the collected identifiers
(`pandas.Series(to_remove).unique()`). -/
def clean_kraken (s : CleanerSettings) (t : Table) : Option (List String) :=
  (collectFlags s t (groupKeys t)).map uniqueList

/-- Embeds `Cleaner.clean_mlst` (process/cleaners.py:111-116):
`data[data['sequence_type'] == '-'].index.tolist()` when lineage
completeness is required, else nothing. -/
def clean_mlst (s : CleanerSettings) (t : Table) : List String :=
  if s.complete_lineage then
    (t.rows.filter
      (fun r => decide (getCell r.2 "sequence_type" = some (Value.vstr "-")))).map
      Prod.fst
  else []

/-- The removal dictionary of `SurveyCleaner.clean` in its literal
order: the kraken and mlst lists, and the always-empty cleaners for the
remaining kinds. -/
def surveyRd (kl ml : List String) : RemovalSet :=
  [("kraken", kl), ("mlst", ml), ("mash", []),
   ("abricate_resistance", []), ("abricate_virulence", []),
   ("abricate_plasmid", []),
   ("mykrobe_genotype", []), ("mykrobe_phenotype", [])]

/-- The removal dictionary built by `SurveyCleaner.clean`
(process/cleaners.py:138-163): `clean_kraken` on the kraken table,
`clean_mlst` on the mlst table, and the always-empty cleaners for the
remaining kinds. -/
def surveyRemovalSet (s : CleanerSettings) (c : Container) : Option RemovalSet :=
  match c.lookup "kraken", c.lookup "mlst" with
  | some tk, some tm =>
    (clean_kraken s tk).map (fun kl => surveyRd kl (clean_mlst s tm))
  | _, _ => none

/-- The effect of `SurveyCleaner.clean` on the data container: build the
removal set and apply `self.data.remove(self.remove)` (no retain). -/
def surveyClean (s : CleanerSettings) (c : Container) : Option Container :=
  (surveyRemovalSet s c).map (fun rd => removeOp c rd false)

/-- The slice of `TrackerData` (process/trackers.py:11-23) that
`as_dataframe` and `SurveyResult.complete` read. -/
structure Tracker where
  iid : List String
  process : List String
  cleaned : List (List String)
deriving Repr

/-- One cell of `TrackerData.as_dataframe` (process/trackers.py:25-39):
for column `p` at position `k` of the process list, whether identifier
`i` is contained in the `cleaned` snapshot at position `k`. An
out-of-range snapshot raises `IndexError` in pandas; theorems carry the
in-range hypothesis. -/
def presenceCell (tr : Tracker) (i : String) (p : String) : Bool :=
  match tr.process.indexOf? p with
  | some k => decide (i ∈ tr.cleaned.getD k [])
  | none => false

/-- The identifier set computed by `SurveyResult.complete`
(process/results.py:92-113): the tracked identifiers whose `mlst` and
`kraken` presence cells are both true (the set intersection of
`iids_mlst` and `iids_kraken`), as a deduplicated list. -/
def completeIids (tr : Tracker) : List String :=
  uniqueList (tr.iid.filter
    (fun i => presenceCell tr i "mlst" && presenceCell tr i "kraken"))

/-- Embeds `self.data = self.data.subset(iids=complete)` in
`SurveyResult.complete`. -/
def completeOp (tr : Tracker) (c : Container) : Container :=
  subsetOp c (completeIids tr)

/-- The aggregated table built by `Processor._aggregate`: rows indexed
by sample identifier under the index label set by `df.index.name`. -/
structure AggTable where
  indexName : String
  rows : List (String × Row)
deriving DecidableEq, Repr

/-- Embeds `sorted(data)` in `Processor._split_data` (processors.py:189-194):
the fragment keys in sorted order. -/
def sortedKeys (data : List (String × List Row)) : List String :=
  (data.map Prod.fst).insertionSort (fun a b => a ≤ b)

/-- Embeds `Processor._aggregate` (processors.py:172-187): split the parsed
mapping into identifier-sorted fragments, tag each fragment's rows with
its identifier (`df.assign(id=...)` + `set_index('id')`), concatenate,
and name the index `"ID"`. `pandas.concat` on an empty mapping raises
(`none`). -/
def aggregateOp (data : List (String × List Row)) : Option AggTable :=
  if data.isEmpty then none
  else some { indexName := "ID",
              rows := (sortedKeys data).flatMap
                (fun i => ((data.lookup i).getD []).map (fun r => (i, r))) }

/-- A nested Python structure of dictionaries, lists and atoms, as
walked by `get_subdict`. -/
inductive JValue where
  | atom : String → JValue
  | dict : List (String × JValue) → JValue
  | arr : List JValue → JValue

mutual

/-- Embeds `get_subdict` (utils.py:117-129): walk the entries of a dictionary;
a key match yields the value (without descending into it), a dict value
is searched recursively, a list value has its dict elements searched. -/
def get_subdict (key : String) : List (String × JValue) → List JValue
  | [] => []
  | (k, v) :: rest =>
    (if k = key then [v] else subVal key v) ++ get_subdict key rest

/-- The `elif` branches of `get_subdict` for one non-matching value. -/
def subVal (key : String) : JValue → List JValue
  | JValue.dict d => get_subdict key d
  | JValue.arr l => subArr key l
  | _ => []

/-- The `elif isinstance(v, list)` loop of `get_subdict`: search the
dictionary elements of a list. -/
def subArr (key : String) : List JValue → List JValue
  | [] => []
  | x :: xs =>
    (match x with
     | JValue.dict d => get_subdict key d
     | _ => []) ++ subArr key xs

end

mutual

/-- The spec's reading of the recursive key-search, stated from its
words: yield the value of every occurrence of the target key in the
structure in depth-first encounter order — also the occurrences nested
inside a matched value. -/
def specOccurrences (key : String) : List (String × JValue) → List JValue
  | [] => []
  | (k, v) :: rest =>
    (if k = key then v :: specSubVal key v else specSubVal key v) ++
      specOccurrences key rest

/-- Descent of `specOccurrences` into one value. -/
def specSubVal (key : String) : JValue → List JValue
  | JValue.dict d => specOccurrences key d
  | JValue.arr l => specSubArr key l
  | _ => []

/-- Descent of `specOccurrences` into the dictionary elements of a
list. -/
def specSubArr (key : String) : List JValue → List JValue
  | [] => []
  | x :: xs =>
    (match x with
     | JValue.dict d => specOccurrences key d
     | _ => []) ++ specSubArr key xs

end

mutual

/-- Whether the target key occurs anywhere in a dictionary, through the
grammar `get_subdict` searches (dict entries and dict elements of
lists). -/
def keyInDict (key : String) : List (String × JValue) → Bool
  | [] => false
  | (k, v) :: rest => ((k == key) || keyInVal key v) || keyInDict key rest

/-- Whether the target key occurs anywhere inside one value. -/
def keyInVal (key : String) : JValue → Bool
  | JValue.dict d => keyInDict key d
  | JValue.arr l => keyInArr key l
  | _ => false

/-- Whether the target key occurs in some dictionary element of a
list. -/
def keyInArr (key : String) : List JValue → Bool
  | [] => false
  | x :: xs =>
    (match x with
     | JValue.dict d => keyInDict key d
     | _ => false) || keyInArr key xs

end

mutual

/-- No occurrence of the target key in the dictionary is nested inside
the value of another occurrence. -/
def cleanDict (key : String) : List (String × JValue) → Bool
  | [] => true
  | (k, v) :: rest =>
    (if k == key then !keyInVal key v else cleanVal key v) &&
      cleanDict key rest

/-- Descent of `cleanDict` into one value. -/
def cleanVal (key : String) : JValue → Bool
  | JValue.dict d => cleanDict key d
  | JValue.arr l => cleanArr key l
  | _ => true

/-- Descent of `cleanDict` into the dictionary elements of a list. -/
def cleanArr (key : String) : List JValue → Bool
  | [] => true
  | x :: xs =>
    (match x with
     | JValue.dict d => cleanDict key d
     | _ => true) && cleanArr key xs

end

/-- The frame a dangling reference dereferences to; never reached under
the validity hypotheses of the theorems. -/
def emptyTable : Table := { cols := [], rows := [] }

/-- The Python object heap: data frames addressed by position. -/
abbrev Heap := List Table

/-- A dataclass instance at the reference level: attribute name to the
address of the frame it holds. -/
abbrev Fields := List (String × Nat)

/-- Embeds `setattr(sub, a, ...)` at the reference level. -/
def setFieldAddr (fs : Fields) (a : String) (n : Nat) : Fields :=
  fs.map (fun p => if p.1 = a then (a, n) else p)

/-- Dereference every attribute of a dataclass instance. -/
def derefFields (h : Heap) (fs : Fields) : Container :=
  fs.map (fun p => (p.1, (h[p.2]?).getD emptyTable))

/-- The `for attr, df in self` loop of `ResultData.subset` at the
reference level: each attribute of `sub` is re-pointed at a freshly
allocated subset of the frame the original attribute references. -/
def subsetLoop (iids : List String) :
    Fields → Fields → Heap → Fields × Heap
  | [], sub, h => (sub, h)
  | (a, n) :: todo, sub, h =>
    subsetLoop iids todo (setFieldAddr sub a h.length)
      (h ++ [subsetTable ((h[n]?).getD emptyTable) iids])

/-- Embeds `ResultData.subset(iids, inplace=False)` at the reference level:
`copy.copy(self)` (`SurveyData.__copy__`) gives `sub` the same frame
references as `self`, the loop re-points every attribute of `sub` at a
fresh subset frame, and `sub.update_iid()` points `iid` at a fresh
identifier frame built from `sub`'s frames. -/
def subsetRef (fs : Fields) (h : Heap) (iids : List String) : Fields × Heap :=
  let r := subsetLoop iids fs fs h
  (setFieldAddr r.1 "iid" r.2.length,
   r.2 ++ [iidTable (allIids (derefFields r.2 r.1))])

/-- A row of a species-typing table. -/
def mlstRow (st : String) : Row := [("sequence_type", Value.vstr st)]

/-- A row of a taxonomic-classification table. -/
def krakenRow (pct : Rat) (lvl tax : String) : Row :=
  [("percent", Value.vnum pct), ("level", Value.vstr lvl),
   ("taxonomy", Value.vstr tax)]

/-- The classification table of the purity witness: two samples, each a
single species-rank row, at 70% and 85% of assigned reads. -/
def tC1 : Table :=
  { cols := ["percent", "level", "taxonomy"],
    rows := [("S1", krakenRow 70 "S" "EC"), ("S2", krakenRow 85 "S" "EC")] }

/-- A classification table whose only sample group has rows but none at
the species rank (a single genus-level row). -/
def tC8 : Table :=
  { cols := ["percent", "level", "taxonomy"],
    rows := [("S1", krakenRow 80 "G" "EC")] }

/-- The non-`iid` slots of the idempotence witness container: an mlst
table with one resolved and one unresolved sequence type, an empty
classification table, and empty remaining kinds. -/
def restC7 : Container :=
  [("fasta", { cols := ["fasta"], rows := [] }),
   ("fastq", { cols := ["forward", "reverse"], rows := [] }),
   ("mlst", { cols := ["sequence_type"],
              rows := [("S1", mlstRow "15"), ("S2", mlstRow "-")] }),
   ("kraken", { cols := ["percent", "level", "taxonomy"], rows := [] }),
   ("mash", emptyTable), ("abricate_resistance", emptyTable),
   ("abricate_virulence", emptyTable), ("abricate_plasmid", emptyTable),
   ("mykrobe_phenotype", emptyTable), ("mykrobe_genotype", emptyTable)]

/-- The idempotence witness container in `SurveyData` field order. -/
def cC7 : Container := ("iid", iidTable ["S1", "S2"]) :: restC7

/-- The container after one pass of the survey cleaner over `cC7` (the
first pass drops `S2`, whose sequence type is the unresolved marker,
from the mlst table). -/
def cC7res : Container := (surveyClean defaultSettings cC7).getD []

/-- A small `SurveyData` instance in dataclass field order
(process/data.py:16-28, 310-322): one sample `S1` known to the `iid`
list and present only in the `mlst` analysis table. -/
def cC2 : Container :=
  [("iid", iidTable ["S1"]),
   ("fasta", { cols := ["fasta"], rows := [] }),
   ("fastq", { cols := ["forward", "reverse"], rows := [] }),
   ("mlst", { cols := ["sequence_type"], rows := [("S1", mlstRow "15")] }),
   ("kraken", emptyTable), ("mash", emptyTable),
   ("abricate_resistance", emptyTable), ("abricate_virulence", emptyTable),
   ("abricate_plasmid", emptyTable),
   ("mykrobe_phenotype", emptyTable), ("mykrobe_genotype", emptyTable)]

/-- A small heap of four frames for the subset witness. -/
def hC6 : Heap :=
  [iidTable ["S1"], { cols := ["fasta"], rows := [] },
   { cols := ["forward", "reverse"], rows := [] },
   { cols := ["sequence_type"], rows := [("S1", mlstRow "15")] }]

/-- Fields of a container living on `hC6`. -/
def fsC6 : Fields := [("iid", 0), ("fasta", 1), ("fastq", 2), ("mlst", 3)]

/-- The tracker of the `complete` witness: mlst saw S1,S2,S3 and kraken
saw S2,S3,S4. -/
def trC3 : Tracker :=
  { iid := ["S1", "S2", "S3", "S4"], process := ["mlst", "kraken"],
    cleaned := [["S1", "S2", "S3"], ["S2", "S3", "S4"]] }

/-- The mlst table of the `complete` witness. -/
def tmC3 : Table :=
  { cols := ["sequence_type"],
    rows := [("S1", mlstRow "15"), ("S2", mlstRow "7"), ("S3", mlstRow "3")] }

/-- The kraken-identifier table of the `complete` witness (cell content
irrelevant to `complete`). -/
def tkC3 : Table :=
  { cols := [], rows := [("S2", []), ("S3", []), ("S4", [])] }

/-- The container of the `complete` witness. -/
def cC3 : Container :=
  [("iid", iidTable ["S1", "S2", "S3", "S4"]), ("mlst", tmC3),
   ("kraken", tkC3)]

/-- A structure in which the target key `a` occurs twice, once nested
inside the other occurrence's value. -/
def exC9 : List (String × JValue) :=
  [("a", JValue.dict [("a", JValue.atom "x")])]

/-- A nested structure holding the key `lineage` at three different
depths/branches: top level, inside a nested dictionary, and inside a
dictionary element of a list. -/
def exC9w : List (String × JValue) :=
  [("lineage", JValue.atom "L1"),
   ("child", JValue.dict [("lineage", JValue.atom "L2")]),
   ("results", JValue.arr [JValue.dict [("lineage", JValue.atom "L3")]])]

theorem mem_uniqueAux {α : Type} [DecidableEq α] (seen l : List α) (a : α) :
    a ∈ uniqueAux seen l ↔ a ∈ l ∧ a ∉ seen := by
  induction l generalizing seen with
  | nil => simp [uniqueAux]
  | cons x xs ih =>
    rw [uniqueAux]
    by_cases hx : x ∈ seen
    · rw [if_pos hx, ih]
      constructor
      · rintro ⟨h1, h2⟩; exact ⟨List.mem_cons_of_mem _ h1, h2⟩
      · rintro ⟨h1, h2⟩
        cases List.mem_cons.1 h1 with
        | inl h => exact absurd (h ▸ hx) h2
        | inr h => exact ⟨h, h2⟩
    · rw [if_neg hx]
      by_cases hax : a = x
      · subst hax; simp [hx]
      · simp only [List.mem_cons, ih]
        tauto

theorem mem_uniqueList {α : Type} [DecidableEq α] (l : List α) (a : α) :
    a ∈ uniqueList l ↔ a ∈ l := by
  rw [uniqueList, mem_uniqueAux]
  simp

theorem nodup_uniqueAux {α : Type} [DecidableEq α] (seen l : List α) :
    (uniqueAux seen l).Nodup := by
  induction l generalizing seen with
  | nil => simp [uniqueAux]
  | cons x xs ih =>
    rw [uniqueAux]
    by_cases hx : x ∈ seen
    · rw [if_pos hx]; exact ih seen
    · rw [if_neg hx]
      refine List.nodup_cons.2 ⟨?_, ih (x :: seen)⟩
      intro hmem
      exact ((mem_uniqueAux _ _ _).1 hmem).2 (List.mem_cons_self x seen)

theorem nodup_uniqueList {α : Type} [DecidableEq α] (l : List α) :
    (uniqueList l).Nodup := nodup_uniqueAux [] l

theorem uniqueAux_eq_self {α : Type} [DecidableEq α] {seen l : List α}
    (h : l.Nodup) (hd : ∀ a ∈ l, a ∉ seen) : uniqueAux seen l = l := by
  induction l generalizing seen with
  | nil => rfl
  | cons x xs ih =>
    rw [uniqueAux, if_neg (hd x (List.mem_cons_self x xs))]
    congr 1
    refine ih (List.nodup_cons.1 h).2 ?_
    intro a ha hmem
    cases List.mem_cons.1 hmem with
    | inl he => exact (List.nodup_cons.1 h).1 (he ▸ ha)
    | inr he => exact hd a (List.mem_cons_of_mem _ ha) he

theorem uniqueList_eq_self {α : Type} [DecidableEq α] {l : List α}
    (h : l.Nodup) : uniqueList l = l :=
  uniqueAux_eq_self h (by simp)

theorem uniqueAux_eq_nil {α : Type} [DecidableEq α] {seen r : List α}
    (h : ∀ x ∈ r, x ∈ seen) : uniqueAux seen r = [] := by
  induction r with
  | nil => rfl
  | cons y ys ih =>
    rw [uniqueAux, if_pos (h y (List.mem_cons_self y ys))]
    exact ih (fun x hx => h x (List.mem_cons_of_mem _ hx))

theorem uniqueAux_append_absorb {α : Type} [DecidableEq α] {l r : List α}
    (seen : List α) (hsub : ∀ x ∈ r, x ∈ l ∨ x ∈ seen) :
    uniqueAux seen (l ++ r) = uniqueAux seen l := by
  induction l generalizing seen with
  | nil =>
    rw [List.nil_append, uniqueAux_eq_nil]
    · rfl
    · intro x hx
      cases hsub x hx with
      | inl h => exact absurd h (by simp)
      | inr h => exact h
  | cons x xs ih =>
    rw [List.cons_append, uniqueAux, uniqueAux]
    by_cases hx : x ∈ seen
    · rw [if_pos hx, if_pos hx]
      refine ih seen ?_
      intro y hy
      cases hsub y hy with
      | inl h =>
        cases List.mem_cons.1 h with
        | inl he => exact Or.inr (he ▸ hx)
        | inr he => exact Or.inl he
      | inr h => exact Or.inr h
    · rw [if_neg hx, if_neg hx]
      congr 1
      refine ih (x :: seen) ?_
      intro y hy
      cases hsub y hy with
      | inl h =>
        cases List.mem_cons.1 h with
        | inl he => exact Or.inr (he ▸ List.mem_cons_self x seen)
        | inr he => exact Or.inl he
      | inr h => exact Or.inr (List.mem_cons_of_mem _ h)

theorem uniqueList_append_of_subset {α : Type} [DecidableEq α]
    {l r : List α} (hnd : l.Nodup) (hsub : ∀ x ∈ r, x ∈ l) :
    uniqueList (l ++ r) = l := by
  rw [uniqueList, uniqueAux_append_absorb [] (fun x hx => Or.inl (hsub x hx))]
  exact uniqueList_eq_self hnd

theorem count_uniqueList_of_mem {α : Type} [DecidableEq α] {l : List α}
    {a : α} (h : a ∈ uniqueList l) : (uniqueList l).count a = 1 :=
  List.count_eq_one_of_mem (nodup_uniqueList l) h

theorem lookup_mapVals (f : String → Table → Table) (c : Container)
    (a : String) : (mapVals f c).lookup a = (c.lookup a).map (f a) := by
  induction c with
  | nil => rfl
  | cons p cs ih =>
    obtain ⟨k, t⟩ := p
    by_cases hk : a = k
    · subst hk
      simp [mapVals, List.lookup_cons]
    · have hbeq : (a == k) = false := by
        simp [hk]
      simp [mapVals, List.lookup_cons, hbeq] at ih ⊢
      exact ih

theorem keys_mapVals (f : String → Table → Table) (c : Container) :
    (mapVals f c).map Prod.fst = c.map Prod.fst := by
  induction c with
  | nil => rfl
  | cons p cs ih => simp [mapVals] at ih ⊢

theorem lookup_setAttr_self (c : Container) (a : String) (t u : Table)
    (h : c.lookup a = some u) : (setAttr c a t).lookup a = some t := by
  rw [setAttr, lookup_mapVals, h]
  simp

theorem lookup_setAttr_ne (c : Container) (a b : String) (t : Table)
    (hne : b ≠ a) : (setAttr c a t).lookup b = c.lookup b := by
  rw [setAttr, lookup_mapVals]
  cases hcb : c.lookup b with
  | none => rfl
  | some u => simp [hne]

theorem lookup_update_iid_ne (c : Container) (b : String)
    (hne : b ≠ "iid") : (update_iid c).lookup b = c.lookup b :=
  lookup_setAttr_ne c "iid" b _ hne

theorem lookup_update_iid_self (c : Container) (u : Table)
    (h : c.lookup "iid" = some u) :
    (update_iid c).lookup "iid" = some (iidTable (allIids c)) :=
  lookup_setAttr_self c "iid" _ u h

theorem index_iidTable (ids : List String) : (iidTable ids).index = ids := by
  simp [iidTable, Table.index]
  exact List.map_id ids

theorem mem_allIids (c : Container) (x : String) :
    x ∈ allIids c ↔ ∃ p ∈ c, x ∈ p.2.index := by
  rw [allIids, mem_uniqueList, List.mem_flatMap]
  constructor
  · rintro ⟨p, hp, hx⟩
    exact ⟨p, hp, (mem_uniqueList _ _).1 hx⟩
  · rintro ⟨p, hp, hx⟩
    exact ⟨p, hp, (mem_uniqueList _ _).2 hx⟩

theorem mem_allIids_mapVals (f : String → Table → Table) (c : Container)
    (x : String) :
    x ∈ allIids (mapVals f c) ↔ ∃ p ∈ c, x ∈ (f p.1 p.2).index := by
  rw [mem_allIids]
  constructor
  · rintro ⟨p, hp, hx⟩
    rw [mapVals, List.mem_map] at hp
    obtain ⟨q, hq, rfl⟩ := hp
    exact ⟨q, hq, hx⟩
  · rintro ⟨q, hq, hx⟩
    exact ⟨(q.1, f q.1 q.2), List.mem_map.2 ⟨q, hq, rfl⟩, hx⟩

/-- C2, counterexample: removing `S1` from the only analysis table that
contains it leaves `S1` absent from every analysis table, yet the
refreshed identifier-list table still contains `S1`, because
`update_iid` unions over every attribute of the container including the
previous `iid` table itself. -/
theorem C2_counterexample :
    (removeOp cC2 [("mlst", ["S1"])] false).lookup "iid"
        = some (iidTable ["S1"]) ∧
    ∀ p ∈ removeOp cC2 [("mlst", ["S1"])] false,
      p.1 ≠ "iid" → "S1" ∉ p.2.index := by
  decide

/-- C2 (amended): after each structural mutation (`__add__`, `remove`,
`subset`) the refreshed identifier-list table contains exactly the union
of the distinct row indices of all tables of the container as the
mutation left them — including the `fasta`/`fastq` path tables and
the not-yet-refreshed `iid` table itself.  An identifier removed from
every analysis table may therefore persist in the identifier list. -/
theorem C2_amended (c : Container) (u : Table)
    (h : c.lookup "iid" = some u) :
    (∀ rd ret x, ∃ t, (removeOp c rd ret).lookup "iid" = some t ∧
       (x ∈ t.index ↔ ∃ p ∈ c, x ∈ (removedTable rd ret p.1 p.2).index)) ∧
    (∀ other x, ∃ t, (addOp c other).lookup "iid" = some t ∧
       (x ∈ t.index ↔ ∃ p ∈ c, x ∈ (addedTable other p.1 p.2).index)) ∧
    (∀ iids x, ∃ t, (subsetOp c iids).lookup "iid" = some t ∧
       (x ∈ t.index ↔ ∃ p ∈ c, x ∈ (subsetTable p.2 iids).index)) := by
  refine ⟨fun rd ret x => ?_, fun other x => ?_, fun iids x => ?_⟩
  · have h1 : (mapVals (removedTable rd ret) c).lookup "iid"
        = some (removedTable rd ret "iid" u) := by
      rw [lookup_mapVals, h]; rfl
    refine ⟨iidTable (allIids (mapVals (removedTable rd ret) c)),
      lookup_update_iid_self _ _ h1, ?_⟩
    rw [index_iidTable]
    exact mem_allIids_mapVals _ c x
  · have h1 : (mapVals (addedTable other) c).lookup "iid"
        = some (addedTable other "iid" u) := by
      rw [lookup_mapVals, h]; rfl
    refine ⟨iidTable (allIids (mapVals (addedTable other) c)),
      lookup_update_iid_self _ _ h1, ?_⟩
    rw [index_iidTable]
    exact mem_allIids_mapVals _ c x
  · have h1 : (mapVals (fun _ t => subsetTable t iids) c).lookup "iid"
        = some (subsetTable u iids) := by
      rw [lookup_mapVals, h]; rfl
    refine ⟨iidTable (allIids (mapVals (fun _ t => subsetTable t iids) c)),
      lookup_update_iid_self _ _ h1, ?_⟩
    rw [index_iidTable]
    exact mem_allIids_mapVals _ c x

/-- C2 (amended), witness at the concrete container: the union formula
instantiated for the removal that motivated the counterexample. -/
theorem C2_amended_witness :
    ∃ t, (removeOp cC2 [("mlst", ["S1"])] false).lookup "iid" = some t ∧
      ("S1" ∈ t.index ↔
        ∃ p ∈ cC2, "S1" ∈ (removedTable [("mlst", ["S1"])] false p.1 p.2).index) :=
  (C2_amended cC2 (iidTable ["S1"]) (by decide)).1 [("mlst", ["S1"])] false "S1"

/-- C5: `remove(removal_set, retain)` drops the listed identifiers of
each kind named in the removal set when `retain=False`, keeps only the
listed identifiers when `retain=True`, leaves the table of any kind
absent from the removal set unchanged, and in all cases ends by
refreshing the identifier-list table. -/
theorem remove_semantics (c : Container) (rd : RemovalSet) (a : String)
    (t : Table) (ha : c.lookup a = some t) (hne : a ≠ "iid") :
    (∀ ids, rd.lookup a = some ids →
      (removeOp c rd false).lookup a
          = some { t with rows := t.rows.filter (fun r => r.1 ∉ ids) } ∧
      (removeOp c rd true).lookup a
          = some { t with rows := t.rows.filter (fun r => r.1 ∈ ids) }) ∧
    (rd.lookup a = none →
      ∀ ret, (removeOp c rd ret).lookup a = some t) ∧
    (∀ ret u, c.lookup "iid" = some u →
      (removeOp c rd ret).lookup "iid"
        = some (iidTable (allIids (mapVals (removedTable rd ret) c)))) := by
  refine ⟨fun ids hids => ?_, fun hnone ret => ?_, fun ret u hu => ?_⟩
  · constructor
    · rw [removeOp, lookup_update_iid_ne _ _ hne, lookup_mapVals, ha]
      simp [removedTable, hids, dropRows]
    · rw [removeOp, lookup_update_iid_ne _ _ hne, lookup_mapVals, ha]
      simp [removedTable, hids, keepRows]
  · rw [removeOp, lookup_update_iid_ne _ _ hne, lookup_mapVals, ha]
    simp [removedTable, hnone]
  · rw [removeOp]
    refine lookup_update_iid_self _ (removedTable rd ret "iid" u) ?_
    rw [lookup_mapVals, hu, Option.map_some']

theorem mem_keptRows_fst (t : Table) (iids : List String) (i : String) :
    i ∈ (keptRows t iids).map Prod.fst ↔ i ∈ t.index ∧ i ∈ iids := by
  rw [keptRows, Table.index]
  constructor
  · intro hmem
    obtain ⟨p, hp, rfl⟩ := List.mem_map.1 hmem
    have h1 := List.mem_of_mem_filter hp
    have h2 := List.of_mem_filter hp
    simp only [decide_eq_true_eq] at h2
    exact ⟨List.mem_map.2 ⟨p, h1, rfl⟩, h2⟩
  · rintro ⟨h1, h2⟩
    obtain ⟨p, hp, rfl⟩ := List.mem_map.1 h1
    refine List.mem_map.2 ⟨p, List.mem_filter.2 ⟨hp, ?_⟩, rfl⟩
    simp only [decide_eq_true_eq]
    exact h2

theorem mem_missingIids (t : Table) (iids : List String) (i : String) :
    i ∈ missingIids t iids ↔
      i ∈ iids ∧ i ∉ (keptRows t iids).map Prod.fst := by
  rw [missingIids, mem_uniqueList, List.mem_filter]
  constructor
  · rintro ⟨h1, h2⟩
    refine ⟨h1, ?_⟩
    intro hmem
    exact of_decide_eq_true h2 hmem
  · rintro ⟨h1, h2⟩
    refine ⟨h1, ?_⟩
    exact decide_eq_true (by exact h2)

theorem index_subsetTable (t : Table) (iids : List String) (i : String) :
    i ∈ (subsetTable t iids).index ↔ i ∈ iids := by
  rw [subsetTable, Table.index]
  simp only [List.map_append, List.mem_append, List.map_map]
  have hmm : (List.map (Prod.fst ∘ fun i => (i, nullRow t.cols))
      (missingIids t iids)) = missingIids t iids := by
    rw [show (Prod.fst ∘ fun i => (i, nullRow t.cols)) = id from rfl]
    exact List.map_id _
  rw [hmm]
  constructor
  · rintro (hk | hm)
    · exact ((mem_keptRows_fst t iids i).1 hk).2
    · exact ((mem_missingIids t iids i).1 hm).1
  · intro hi
    by_cases hk : i ∈ (keptRows t iids).map Prod.fst
    · exact Or.inl hk
    · exact Or.inr ((mem_missingIids t iids i).2 ⟨hi, hk⟩)

theorem rows_subsetTable_sub (t : Table) (iids : List String) :
    ∀ p ∈ (subsetTable t iids).rows, p.1 ∈ iids := by
  intro p hp
  rw [subsetTable] at hp
  rcases List.mem_append.1 hp with hk | hm
  · have h2 := List.of_mem_filter hk
    simp only [decide_eq_true_eq] at h2
    exact h2
  · obtain ⟨j, hj, rfl⟩ := List.mem_map.1 hm
    exact ((mem_missingIids t iids j).1 hj).1

theorem filter_fst_map_nodup {β : Type} (f : String → β) (l : List String)
    (hnd : l.Nodup) (i : String) (hi : i ∈ l) :
    (l.map (fun j => (j, f j))).filter (fun p => p.1 = i) = [(i, f i)] := by
  induction l with
  | nil => cases hi
  | cons x xs ih =>
    rw [List.map_cons, List.filter_cons]
    by_cases hxi : x = i
    · subst hxi
      have hx : x ∉ xs := (List.nodup_cons.1 hnd).1
      simp only [decide_eq_true_eq, if_pos rfl, if_true]
      congr 1
      apply List.filter_eq_nil_iff.2
      intro p hp
      obtain ⟨j, hj, rfl⟩ := List.mem_map.1 hp
      simp only [decide_eq_true_eq]
      intro hji
      exact hx (hji ▸ hj)
    · have hmem : i ∈ xs := by
        cases List.mem_cons.1 hi with
        | inl h => exact absurd h.symm hxi
        | inr h => exact h
      simp only [decide_eq_true_eq, if_neg hxi]
      exact ih (List.nodup_cons.1 hnd).2 hmem

theorem subsetTable_null_row (t : Table) (iids : List String) (i : String)
    (hi : i ∈ iids) (hni : i ∉ t.index) :
    (subsetTable t iids).rows.filter (fun p => p.1 = i)
      = [(i, nullRow t.cols)] := by
  rw [subsetTable]
  rw [List.filter_append]
  have hkept : (keptRows t iids).filter (fun p => p.1 = i) = [] := by
    apply List.filter_eq_nil_iff.2
    intro p hp
    simp only [decide_eq_true_eq]
    intro hpi
    apply hni
    rw [Table.index]
    exact List.mem_map.2 ⟨p, List.mem_of_mem_filter hp, hpi⟩
  have hknot : i ∉ (keptRows t iids).map Prod.fst := by
    intro hmem
    exact hni ((mem_keptRows_fst t iids i).1 hmem).1
  have hmiss : i ∈ missingIids t iids :=
    (mem_missingIids t iids i).2 ⟨hi, hknot⟩
  rw [hkept, List.nil_append]
  exact filter_fst_map_nodup (fun _ => nullRow t.cols) (missingIids t iids)
    (nodup_uniqueList _) i hmiss

theorem lookup_eq_of_mem_nodup {β : Type} (fs : List (String × β))
    (a : String) (n : β) (hnd : (fs.map Prod.fst).Nodup) (h : (a, n) ∈ fs) :
    fs.lookup a = some n := by
  induction fs with
  | nil => cases h
  | cons p ps ih =>
    obtain ⟨k, v⟩ := p
    cases List.mem_cons.1 h with
    | inl he =>
      cases he
      simp [List.lookup_cons]
    | inr he =>
      have hk : a ≠ k := by
        intro hak
        subst hak
        exact (List.nodup_cons.1 hnd).1
          (List.mem_map.2 ⟨(a, n), he, rfl⟩)
      have hbeq : (a == k) = false := by simp [hk]
      rw [List.lookup_cons]
      simp only [hbeq]
      exact ih (List.nodup_cons.1 hnd).2 he

theorem lookup_setFieldAddr_self (fs : Fields) (a : String) (n m : Nat)
    (h : fs.lookup a = some m) : (setFieldAddr fs a n).lookup a = some n := by
  induction fs with
  | nil => cases h
  | cons p ps ih =>
    obtain ⟨k, v⟩ := p
    by_cases hk : a = k
    · subst hk
      simp [setFieldAddr, List.lookup_cons]
    · have hbeq : (a == k) = false := by simp [hk]
      have hne : ¬ k = a := fun he => hk he.symm
      rw [List.lookup_cons] at h
      simp only [hbeq] at h
      rw [setFieldAddr, List.map_cons, if_neg hne, List.lookup_cons]
      simp only [hbeq]
      exact ih h

theorem lookup_setFieldAddr_ne (fs : Fields) (a b : String) (n : Nat)
    (hne : b ≠ a) : (setFieldAddr fs a n).lookup b = fs.lookup b := by
  induction fs with
  | nil => rfl
  | cons p ps ih =>
    obtain ⟨k, v⟩ := p
    rw [setFieldAddr, List.map_cons]
    by_cases hk : k = a
    · subst hk
      have hbeq : (b == k) = false := by simp [hne]
      rw [if_pos rfl, List.lookup_cons, List.lookup_cons]
      simp only [hbeq]
      exact ih
    · rw [if_neg hk, List.lookup_cons, List.lookup_cons]
      cases hbk : (b == k) with
      | true => rfl
      | false => exact ih

theorem mem_setFieldAddr (fs : Fields) (a : String) (n : Nat)
    (p : String × Nat) (hp : p ∈ setFieldAddr fs a n) :
    (p ∈ fs ∧ p.1 ≠ a) ∨ p = (a, n) := by
  rw [setFieldAddr] at hp
  obtain ⟨q, hq, he⟩ := List.mem_map.1 hp
  by_cases hqa : q.1 = a
  · rw [if_pos hqa] at he
    exact Or.inr he.symm
  · rw [if_neg hqa] at he
    subst he
    exact Or.inl ⟨hq, hqa⟩

theorem keys_setFieldAddr (fs : Fields) (a : String) (n : Nat) :
    (setFieldAddr fs a n).map Prod.fst = fs.map Prod.fst := by
  induction fs with
  | nil => rfl
  | cons p ps ih =>
    rw [setFieldAddr, List.map_cons, List.map_cons, List.map_cons]
    by_cases hk : p.1 = a
    · rw [if_pos hk]
      simp only [List.cons.injEq]
      exact ⟨hk.symm, by rw [setFieldAddr] at ih; exact ih⟩
    · rw [if_neg hk]
      simp only [List.cons.injEq, true_and]
      rw [setFieldAddr] at ih; exact ih

theorem subsetLoop_heap_extend (iids : List String) (todo : Fields) :
    ∀ sub h, ∃ ext, (subsetLoop iids todo sub h).2 = h ++ ext := by
  induction todo with
  | nil => exact fun sub h => ⟨[], by simp [subsetLoop]⟩
  | cons q todo ih =>
    intro sub h
    obtain ⟨a, n⟩ := q
    obtain ⟨ext, hext⟩ := ih (setFieldAddr sub a h.length)
      (h ++ [subsetTable ((h[n]?).getD emptyTable) iids])
    exact ⟨subsetTable ((h[n]?).getD emptyTable) iids :: ext, by
      rw [subsetLoop, hext, List.append_assoc]; rfl⟩

theorem subsetLoop_keys (iids : List String) (todo : Fields) :
    ∀ sub h, (subsetLoop iids todo sub h).1.map Prod.fst
      = sub.map Prod.fst := by
  induction todo with
  | nil => intro sub h; rfl
  | cons q todo ih =>
    intro sub h
    obtain ⟨a, n⟩ := q
    rw [subsetLoop, ih, keys_setFieldAddr]

theorem subsetLoop_lookup_not_mem (iids : List String) (todo : Fields) :
    ∀ sub h b, b ∉ todo.map Prod.fst →
      (subsetLoop iids todo sub h).1.lookup b = sub.lookup b := by
  induction todo with
  | nil => intro sub h b _; rfl
  | cons q todo ih =>
    intro sub h b hb
    obtain ⟨a, n⟩ := q
    have hba : b ≠ a := fun he => hb (he ▸ List.mem_cons_self _ _)
    have hbt : b ∉ todo.map Prod.fst :=
      fun hmem => hb (List.mem_cons_of_mem _ hmem)
    rw [subsetLoop, ih _ _ b hbt, lookup_setFieldAddr_ne _ _ _ _ hba]

theorem subsetLoop_fresh (iids : List String) (todo : Fields) :
    ∀ sub h p, p ∈ (subsetLoop iids todo sub h).1 →
      (p ∈ sub ∧ p.1 ∉ todo.map Prod.fst) ∨
      (h.length ≤ p.2 ∧ p.2 < (subsetLoop iids todo sub h).2.length) := by
  induction todo with
  | nil =>
    intro sub h p hp
    exact Or.inl ⟨hp, by simp⟩
  | cons q todo ih =>
    intro sub h p hp
    obtain ⟨a, n⟩ := q
    rw [subsetLoop] at hp ⊢
    rcases ih _ _ p hp with ⟨hmem, hkey⟩ | ⟨h1, h2⟩
    · rcases mem_setFieldAddr _ _ _ _ hmem with ⟨hmem2, hne⟩ | he
      · refine Or.inl ⟨hmem2, ?_⟩
        rw [List.map_cons, List.mem_cons]
        rintro (h | h)
        · exact hne h
        · exact hkey h
      · refine Or.inr ⟨?_, ?_⟩
        · rw [he]
        · obtain ⟨ext, hext⟩ := subsetLoop_heap_extend iids todo
            (setFieldAddr sub a h.length)
            (h ++ [subsetTable ((h[n]?).getD emptyTable) iids])
          rw [hext, he, List.length_append, List.length_append,
            List.length_cons]
          omega
    · refine Or.inr ⟨?_, h2⟩
      rw [List.length_append, List.length_cons] at h1
      omega

theorem subsetLoop_fresh_cells (iids : List String) (todo : Fields) :
    ∀ sub h k tbl, h.length ≤ k →
      (subsetLoop iids todo sub h).2[k]? = some tbl →
      ∃ t0, tbl = subsetTable t0 iids := by
  induction todo with
  | nil =>
    intro sub h k tbl hk htbl
    rw [subsetLoop] at htbl
    have : k < h.length := (List.getElem?_eq_some_iff.1 htbl).1
    omega
  | cons q todo ih =>
    intro sub h k tbl hk htbl
    obtain ⟨a, n⟩ := q
    rw [subsetLoop] at htbl
    by_cases hkl : h.length = k
    · obtain ⟨ext, hext⟩ := subsetLoop_heap_extend iids todo
        (setFieldAddr sub a h.length)
        (h ++ [subsetTable ((h[n]?).getD emptyTable) iids])
      rw [hext] at htbl
      subst hkl
      rw [List.append_assoc, List.getElem?_append,
        if_neg (lt_irrefl h.length), Nat.sub_self, List.cons_append,
        List.getElem?_cons_zero] at htbl
      exact ⟨(h[n]?).getD emptyTable, (Option.some.inj htbl).symm⟩
    · refine ih _ _ k tbl ?_ htbl
      rw [List.length_append, List.length_cons, List.length_nil]
      omega

theorem subsetLoop_main (iids : List String) (todo : Fields) :
    ∀ sub h a n n₀, (a, n) ∈ todo → (todo.map Prod.fst).Nodup →
      (∀ p ∈ todo, p.2 < h.length) → sub.lookup a = some n₀ →
      ∃ k, (subsetLoop iids todo sub h).1.lookup a = some k ∧
        h.length ≤ k ∧ k < (subsetLoop iids todo sub h).2.length ∧
        (subsetLoop iids todo sub h).2[k]? =
          some (subsetTable ((h[n]?).getD emptyTable) iids) := by
  induction todo with
  | nil => intro sub h a n n₀ hmem; cases hmem
  | cons q todo ih =>
    intro sub h a n n₀ hmem hnd hv hlk
    obtain ⟨b, m⟩ := q
    have hext := subsetLoop_heap_extend iids todo
      (setFieldAddr sub b h.length)
      (h ++ [subsetTable ((h[m]?).getD emptyTable) iids])
    obtain ⟨ext, hext⟩ := hext
    cases List.mem_cons.1 hmem with
    | inl he =>
      injection he with he1 he2
      subst he1
      subst he2
      have hb : a ∉ todo.map Prod.fst := (List.nodup_cons.1 hnd).1
      refine ⟨h.length, ?_, le_refl _, ?_, ?_⟩
      · rw [subsetLoop, subsetLoop_lookup_not_mem iids todo _ _ a hb]
        exact lookup_setFieldAddr_self sub a h.length n₀ hlk
      · rw [subsetLoop, hext, List.length_append, List.length_append,
          List.length_cons]
        omega
      · rw [subsetLoop, hext, List.append_assoc, List.getElem?_append,
          if_neg (lt_irrefl h.length), Nat.sub_self, List.cons_append,
          List.getElem?_cons_zero]
    | inr he =>
      have hane : a ≠ b := by
        intro hab
        subst hab
        exact (List.nodup_cons.1 hnd).1 (List.mem_map.2 ⟨(a, n), he, rfl⟩)
      have hn : n < h.length := hv (a, n) hmem
      have hres := ih (setFieldAddr sub b h.length)
        (h ++ [subsetTable ((h[m]?).getD emptyTable) iids]) a n n₀ he
        (List.nodup_cons.1 hnd).2
        (fun p hp => by
          rw [List.length_append, List.length_cons]
          have := hv p (List.mem_cons_of_mem _ hp)
          omega)
        (by rw [lookup_setFieldAddr_ne _ _ _ _ hane]; exact hlk)
      obtain ⟨k, hk1, hk2, hk3, hk4⟩ := hres
      rw [List.length_append, List.length_cons] at hk2
      have hgn : (h ++ [subsetTable ((h[m]?).getD emptyTable) iids])[n]?
          = h[n]? := by
        rw [List.getElem?_append, if_pos hn]
      rw [hgn] at hk4
      exact ⟨k, by rw [subsetLoop]; exact hk1, by omega,
        by rw [subsetLoop]; exact hk3, by rw [subsetLoop]; exact hk4⟩

/-- C6: `subset(iids, inplace=False)` returns a detached copy: every
attribute of the result references a frame allocated after the call
began (first conjunct), so overwriting any such fresh frame leaves every
frame referenced by the original container unchanged (second conjunct);
and for every non-`iid` attribute the referenced frame is the subset of
the original frame, whose rows mention only requested identifiers, whose
distinct identifiers are exactly the requested set, and which holds one
all-null row for every requested identifier the original frame lacked
(third conjunct). -/
theorem subset_detached_aligned (fs : Fields) (h : Heap) (iids : List String)
    (hval : ∀ p ∈ fs, p.2 < h.length)
    (hnd : (fs.map Prod.fst).Nodup) :
    (∀ p ∈ (subsetRef fs h iids).1, h.length ≤ p.2) ∧
    (∀ m t', h.length ≤ m → ∀ q ∈ fs,
      ((subsetRef fs h iids).2.set m t')[q.2]? = h[q.2]?) ∧
    (∀ a n, (a, n) ∈ fs → a ≠ "iid" →
      ∃ k tbl, (subsetRef fs h iids).1.lookup a = some k ∧
        (subsetRef fs h iids).2[k]? = some tbl ∧
        tbl = subsetTable ((h[n]?).getD emptyTable) iids ∧
        (∀ p ∈ tbl.rows, p.1 ∈ iids) ∧
        (∀ i, i ∈ tbl.index ↔ i ∈ iids) ∧
        (∀ i, i ∈ iids → i ∉ ((h[n]?).getD emptyTable).index →
          tbl.rows.filter (fun p => p.1 = i)
            = [(i, nullRow ((h[n]?).getD emptyTable).cols)])) := by
  obtain ⟨ext, hext⟩ := subsetLoop_heap_extend iids fs fs h
  refine ⟨?_, ?_, ?_⟩
  · intro p hp
    rw [subsetRef] at hp
    rcases mem_setFieldAddr _ _ _ _ hp with ⟨hmem, hne⟩ | he
    · rcases subsetLoop_fresh iids fs fs h p hmem with ⟨hmem2, hkey⟩ | ⟨h1, _⟩
      · exact absurd (List.mem_map.2 ⟨p, hmem2, rfl⟩) hkey
      · exact h1
    · rw [he]
      simp only []
      rw [hext, List.length_append]
      omega
  · intro m t' hm q hq
    rw [subsetRef]
    simp only []
    have hqm : m ≠ q.2 := fun he => by
      have := hval q hq
      omega
    rw [List.getElem?_set_ne hqm, hext, List.append_assoc,
      List.getElem?_append, if_pos (hval q hq)]
  · intro a n hmem hne
    have hlk : fs.lookup a = some n := lookup_eq_of_mem_nodup fs a n hnd hmem
    obtain ⟨k, hk1, hk2, hk3, hk4⟩ :=
      subsetLoop_main iids fs fs h a n n hmem hnd hval hlk
    refine ⟨k, subsetTable ((h[n]?).getD emptyTable) iids, ?_, ?_, rfl,
      rows_subsetTable_sub _ _, index_subsetTable _ _,
      fun i hi hni => subsetTable_null_row _ _ i hi hni⟩
    · rw [subsetRef]
      simp only []
      rw [lookup_setFieldAddr_ne _ _ _ _ hne]
      exact hk1
    · rw [subsetRef]
      simp only []
      rw [List.getElem?_append, if_pos hk3]
      exact hk4

/-- C6, witness: the detached subset applied on a concrete heap,
instantiated at the `mlst` attribute with one present and one absent
requested identifier. -/
theorem subset_detached_witness :
    ∃ k tbl, (subsetRef fsC6 hC6 ["S1", "S2"]).1.lookup "mlst" = some k ∧
      (subsetRef fsC6 hC6 ["S1", "S2"]).2[k]? = some tbl ∧
      tbl = subsetTable ((hC6[(3 : Nat)]?).getD emptyTable) ["S1", "S2"] ∧
      (∀ p ∈ tbl.rows, p.1 ∈ (["S1", "S2"] : List String)) ∧
      (∀ i, i ∈ tbl.index ↔ i ∈ (["S1", "S2"] : List String)) ∧
      (∀ i, i ∈ (["S1", "S2"] : List String) →
        i ∉ ((hC6[(3 : Nat)]?).getD emptyTable).index →
        tbl.rows.filter (fun p => p.1 = i)
          = [(i, nullRow ((hC6[(3 : Nat)]?).getD emptyTable).cols)]) :=
  (subset_detached_aligned fsC6 hC6 ["S1", "S2"] (by decide) (by decide)).2.2
    "mlst" 3 (by decide) (by decide)

theorem mem_mapVals (f : String → Table → Table) (c : Container)
    (p : String × Table) :
    p ∈ mapVals f c ↔ ∃ q ∈ c, p = (q.1, f q.1 q.2) := by
  rw [mapVals, List.mem_map]
  constructor
  · rintro ⟨q, hq, rfl⟩; exact ⟨q, hq, rfl⟩
  · rintro ⟨q, hq, rfl⟩; exact ⟨q, hq, rfl⟩

theorem presenceCell_eq (tr : Tracker) (i p : String) (k : Nat)
    (h : tr.process.indexOf? p = some k) :
    presenceCell tr i p = decide (i ∈ tr.cleaned.getD k []) := by
  rw [presenceCell, h]

/-- C3: `complete` retains exactly the identifiers present in both the
`mlst` and the `kraken` table.  The code reads the `cleaned`-stage
tracker snapshots through the boolean presence frame; under the
recorded-snapshot facts (each snapshot is the distinct index of its
table, `_track_cleaned`) and coverage of the tracked identifier list,
the retained set is the intersection of the two tables' identifier sets,
and after the subset every table's distinct identifiers equal exactly
that intersection. -/
theorem complete_intersection (tr : Tracker) (c : Container)
    (tm tk : Table)
    (hm : c.lookup "mlst" = some tm) (hk : c.lookup "kraken" = some tk)
    (im ik : Nat)
    (him : tr.process.indexOf? "mlst" = some im)
    (hik : tr.process.indexOf? "kraken" = some ik)
    (hsm : tr.cleaned.getD im [] = tm.indexUnique)
    (hsk : tr.cleaned.getD ik [] = tk.indexUnique)
    (hcov : ∀ x ∈ tm.index, x ∈ tk.index → x ∈ tr.iid) :
    (∀ x, x ∈ completeIids tr ↔ x ∈ tm.index ∧ x ∈ tk.index) ∧
    (∀ p ∈ completeOp tr c, p.1 ≠ "iid" →
      ∀ x, x ∈ p.2.index ↔ x ∈ tm.index ∧ x ∈ tk.index) := by
  have hmain : ∀ x, x ∈ completeIids tr ↔ x ∈ tm.index ∧ x ∈ tk.index := by
    intro x
    rw [completeIids, mem_uniqueList, List.mem_filter]
    constructor
    · rintro ⟨hx, hpres⟩
      simp only [Bool.and_eq_true] at hpres
      obtain ⟨h1, h2⟩ := hpres
      rw [presenceCell_eq tr x "mlst" im him, hsm] at h1
      rw [presenceCell_eq tr x "kraken" ik hik, hsk] at h2
      exact ⟨(mem_uniqueList _ _).1 (of_decide_eq_true h1),
        (mem_uniqueList _ _).1 (of_decide_eq_true h2)⟩
    · rintro ⟨h1, h2⟩
      refine ⟨hcov x h1 h2, ?_⟩
      simp only [Bool.and_eq_true]
      constructor
      · rw [presenceCell_eq tr x "mlst" im him, hsm]
        exact decide_eq_true ((mem_uniqueList _ _).2 h1)
      · rw [presenceCell_eq tr x "kraken" ik hik, hsk]
        exact decide_eq_true ((mem_uniqueList _ _).2 h2)
  refine ⟨hmain, ?_⟩
  intro p hp hne x
  rw [completeOp, subsetOp, update_iid, setAttr] at hp
  rw [mem_mapVals] at hp
  obtain ⟨q, hq, rfl⟩ := hp
  simp only at hne
  rw [if_neg hne]
  rw [mem_mapVals] at hq
  obtain ⟨r, _, rfl⟩ := hq
  rw [index_subsetTable]
  exact hmain x

/-- C3, witness: on the spec's example sets {S1,S2,S3} and {S2,S3,S4}
the retained identifiers are exactly S2 and S3. -/
theorem complete_intersection_witness :
    completeIids trC3 = ["S2", "S3"] ∧
    ("S2" ∈ completeIids trC3 ↔ "S2" ∈ tmC3.index ∧ "S2" ∈ tkC3.index) ∧
    ("S1" ∈ completeIids trC3 ↔ "S1" ∈ tmC3.index ∧ "S1" ∈ tkC3.index) :=
  ⟨by decide,
   (complete_intersection trC3 cC3 tmC3 tkC3 (by decide) (by decide) 0 1
     (by decide) (by decide) (by decide) (by decide) (by decide)).1 "S2",
   (complete_intersection trC3 cC3 tmC3 tkC3 (by decide) (by decide) 0 1
     (by decide) (by decide) (by decide) (by decide) (by decide)).1 "S1"⟩

theorem lookup_append_of_none {β : Type} (r s : List (String × β))
    (c : String) (h : r.lookup c = none) :
    (r ++ s).lookup c = s.lookup c := by
  induction r with
  | nil => rfl
  | cons p ps ih =>
    obtain ⟨k, w⟩ := p
    rw [List.lookup_cons] at h
    rw [List.cons_append, List.lookup_cons]
    cases hck : (c == k) with
    | true => rw [hck] at h; cases h
    | false => rw [hck] at h; exact ih h

theorem getCell_setCellVal (r : Row) (c : String) (v : Value) :
    getCell (setCellVal r c v) c = some v := by
  rw [setCellVal]
  by_cases hs : (r.lookup c).isSome
  · rw [if_pos hs]
    induction r with
    | nil => simp [List.lookup] at hs
    | cons p ps ih =>
      obtain ⟨k, w⟩ := p
      by_cases hkc : k = c
      · subst hkc
        rw [List.map_cons, if_pos rfl, getCell, List.lookup_cons]
        simp
      · rw [List.map_cons, if_neg hkc, getCell, List.lookup_cons]
        have hck : (c == k) = false := by
          simp only [beq_eq_false_iff_ne, ne_eq]
          exact fun he => hkc he.symm
        rw [hck]
        rw [List.lookup_cons] at hs
        simp only [hck] at hs
        exact ih hs
  · rw [if_neg hs]
    rw [getCell, lookup_append_of_none r _ c (Option.not_isSome_iff_eq_none.1 hs),
      List.lookup_cons]
    simp

theorem index_writeCol (t : Table) (c : String)
    (series : List (String × Value)) : (writeCol t c series).index = t.index := by
  rw [writeCol, Table.index, Table.index]
  simp only [List.map_map]
  rfl

theorem lookup_colSeries (t : Table) (col i : String) :
    (colSeries t col).lookup i
      = (t.rows.find? (fun r => r.1 = i)).map
          (fun r => (getCell r.2 col).getD Value.vnull) := by
  rw [colSeries]
  induction t.rows with
  | nil => rfl
  | cons p ps ih =>
    obtain ⟨k, row⟩ := p
    rw [List.map_cons, List.lookup_cons, List.find?_cons]
    by_cases hki : k = i
    · subst hki
      simp
    · have h1 : (i == k) = false := by
        simp only [beq_eq_false_iff_ne, ne_eq]
        exact fun he => hki he.symm
      have h2 : (decide (k = i)) = false := by simp [hki]
      rw [h1, h2]
      exact ih

/-- C10: `groupby(kind, column)` is not read-only, whatever `set_index`
is: once the generator is consumed, every table of the container has
gained the column `column`, each row's new cell holding the value found
for its identifier in the kind table (the first matching row's cell;
null when the identifier or the cell is absent), while row indices are
unchanged. Hypotheses mirror pandas preconditions: the kind attribute
exists, the column exists on the kind table, and the kind table's index
is unique (a duplicated index makes `Index.map` raise). -/
theorem groupby_mutates (c : Container) (attr col : String) (data : Table)
    (hattr : c.lookup attr = some data) (hcol : col ∈ data.cols)
    (hnd : data.index.Nodup) :
    ∃ c', groupbyOp c attr col = some c' ∧
      ∀ p ∈ c, ∃ t', (p.1, t') ∈ c' ∧
        col ∈ t'.cols ∧
        t'.index = p.2.index ∧
        ∀ q ∈ t'.rows, getCell q.2 col
          = some (((data.rows.find? (fun r => r.1 = q.1)).map
              (fun r => (getCell r.2 col).getD Value.vnull)).getD Value.vnull) := by
  refine ⟨mapVals (fun _ t => writeCol t col (colSeries data col)) c, ?_, ?_⟩
  · rw [groupbyOp, hattr]
  · intro p hp
    refine ⟨writeCol p.2 col (colSeries data col),
      (mem_mapVals _ c _).2 ⟨p, hp, rfl⟩, ?_, index_writeCol _ _ _, ?_⟩
    · rw [writeCol]
      by_cases hc : col ∈ p.2.cols
      · rw [if_pos hc]; exact hc
      · rw [if_neg hc]; exact List.mem_append.2 (Or.inr (by simp))
    · intro q hq
      rw [writeCol] at hq
      obtain ⟨r, _, rfl⟩ := List.mem_map.1 hq
      rw [getCell_setCellVal, lookup_colSeries]

/-- C10, witness: the mutation effect on the concrete container, grouped
by the `sequence_type` column of its `mlst` table. -/
theorem groupby_mutates_witness :
    ∃ c', groupbyOp cC3 "mlst" "sequence_type" = some c' ∧
      ∀ p ∈ cC3, ∃ t', (p.1, t') ∈ c' ∧
        "sequence_type" ∈ t'.cols ∧
        t'.index = p.2.index ∧
        ∀ q ∈ t'.rows, getCell q.2 "sequence_type"
          = some (((tmC3.rows.find? (fun r => r.1 = q.1)).map
              (fun r => (getCell r.2 "sequence_type").getD Value.vnull)).getD
                Value.vnull) :=
  groupby_mutates cC3 "mlst" "sequence_type" tmC3 (by decide) (by decide)
    (by decide)

theorem flatMap_congr {α β : Type} {l : List α} {f g : α → List β}
    (h : ∀ a ∈ l, f a = g a) : l.flatMap f = l.flatMap g := by
  induction l with
  | nil => rfl
  | cons x xs ih =>
    rw [List.flatMap_cons, List.flatMap_cons, h x (List.mem_cons_self x xs),
      ih (fun a ha => h a (List.mem_cons_of_mem _ ha))]

theorem sorted_tagged_flatMap (f : String → List Row) (ks : List String)
    (hs : List.Sorted (· ≤ ·) ks) :
    List.Sorted (· ≤ ·)
      ((ks.flatMap (fun i => (f i).map (fun r => (i, r)))).map Prod.fst) := by
  induction ks with
  | nil => simp
  | cons k ks ih =>
    rw [List.flatMap_cons, List.map_append]
    refine List.pairwise_append.2
      ⟨?_, ih (List.sorted_cons.1 hs).2, ?_⟩
    · refine List.pairwise_of_forall_mem_list ?_
      intro a ha b hb
      obtain ⟨q, _, rfl⟩ := List.mem_map.1 ha
      obtain ⟨q', _, rfl⟩ := List.mem_map.1 hb
      obtain ⟨r, _, rfl⟩ := List.mem_map.1 (by assumption : q ∈ _)
      obtain ⟨r', _, rfl⟩ := List.mem_map.1 (by assumption : q' ∈ _)
      exact le_refl k
    · intro a ha b hb
      obtain ⟨q, hq, rfl⟩ := List.mem_map.1 ha
      obtain ⟨r, _, rfl⟩ := List.mem_map.1 hq
      obtain ⟨q', hq', rfl⟩ := List.mem_map.1 hb
      obtain ⟨j, hj, hq'mem⟩ := List.mem_flatMap.1 hq'
      obtain ⟨r', _, rfl⟩ := List.mem_map.1 hq'mem
      exact (List.sorted_cons.1 hs).1 j hj

theorem filter_tagged_not_mem (f : String → List Row) (ks : List String)
    (i : String) (hni : i ∉ ks) :
    (ks.flatMap (fun j => (f j).map (fun r => (j, r)))).filter
      (fun q => q.1 = i) = [] := by
  refine List.filter_eq_nil_iff.2 ?_
  intro q hq
  obtain ⟨j, hj, hmem⟩ := List.mem_flatMap.1 hq
  obtain ⟨r, _, rfl⟩ := List.mem_map.1 hmem
  simp only [decide_eq_true_eq]
  intro he
  exact hni (he ▸ hj)

theorem filter_tagged_flatMap (f : String → List Row) (ks : List String)
    (hnd : ks.Nodup) (i : String) (hi : i ∈ ks) :
    (ks.flatMap (fun j => (f j).map (fun r => (j, r)))).filter
      (fun q => q.1 = i) = (f i).map (fun r => (i, r)) := by
  induction ks with
  | nil => cases hi
  | cons k ks ih =>
    rw [List.flatMap_cons, List.filter_append]
    by_cases hki : k = i
    · subst hki
      have hnk : k ∉ ks := (List.nodup_cons.1 hnd).1
      rw [filter_tagged_not_mem f ks k hnk, List.append_nil]
      refine List.filter_eq_self.2 ?_
      intro q hq
      obtain ⟨r, _, rfl⟩ := List.mem_map.1 hq
      simp
    · have hmem : i ∈ ks := by
        cases List.mem_cons.1 hi with
        | inl h => exact absurd h.symm hki
        | inr h => exact h
      have hblk : ((f k).map (fun r => (k, r))).filter (fun q => q.1 = i)
          = [] := by
        refine List.filter_eq_nil_iff.2 ?_
        intro q hq
        obtain ⟨r, _, rfl⟩ := List.mem_map.1 hq
        simp only [decide_eq_true_eq]
        exact hki
      rw [hblk, List.nil_append]
      exact ih (List.nodup_cons.1 hnd).2 hmem

theorem sortedKeys_perm (data : List (String × List Row)) :
    (sortedKeys data).Perm (data.map Prod.fst) :=
  List.perm_insertionSort _ _

theorem sortedKeys_sorted (data : List (String × List Row)) :
    List.Sorted (· ≤ ·) (sortedKeys data) :=
  List.sorted_insertionSort _ _

/-- C4: `_aggregate` on a non-empty parsed mapping with distinct sample
identifiers yields a table named by the fixed index label `"ID"`, whose
row count is the sum of the fragments' row counts, whose identifier
sequence is non-decreasing, in which the rows tagged with a fragment's
identifier are exactly that fragment's rows in order, and which is
independent of the enumeration order of the input mapping. -/
theorem aggregate_sorted (data : List (String × List Row))
    (hne : data ≠ []) (hnd : (data.map Prod.fst).Nodup) :
    ∃ t, aggregateOp data = some t ∧
      t.indexName = "ID" ∧
      t.rows.length = (data.map (fun p => p.2.length)).sum ∧
      List.Sorted (· ≤ ·) (t.rows.map Prod.fst) ∧
      (∀ p ∈ data, (t.rows.filter (fun q => q.1 = p.1)).map Prod.snd = p.2) ∧
      (∀ data', data'.Perm data → aggregateOp data' = aggregateOp data) := by
  have hisEmpty : ¬ data.isEmpty = true := by
    cases data with
    | nil => exact absurd rfl hne
    | cons p ps => simp
  have hagg : aggregateOp data = some
      { indexName := "ID",
        rows := (sortedKeys data).flatMap
          (fun i => ((data.lookup i).getD []).map (fun r => (i, r))) } := by
    rw [aggregateOp, if_neg hisEmpty]
  refine ⟨_, hagg, rfl, ?_, ?_, ?_, ?_⟩
  · rw [List.length_flatMap]
    have h1 : ((sortedKeys data).map
        (List.length ∘ fun i => ((data.lookup i).getD []).map
          (fun r => (i, r)))).sum
        = ((data.map Prod.fst).map
        (List.length ∘ fun i => ((data.lookup i).getD []).map
          (fun r => (i, r)))).sum :=
      List.Perm.sum_eq (List.Perm.map _ (sortedKeys_perm data))
    rw [h1, List.map_map]
    congr 1
    refine List.map_congr_left ?_
    intro p hp
    have hlk : data.lookup p.1 = some p.2 :=
      lookup_eq_of_mem_nodup data p.1 p.2 hnd (by
        have : (p.1, p.2) = p := rfl
        rw [this]; exact hp)
    simp [hlk]
  · exact sorted_tagged_flatMap _ _ (sortedKeys_sorted data)
  · intro p hp
    have hlk : data.lookup p.1 = some p.2 :=
      lookup_eq_of_mem_nodup data p.1 p.2 hnd (by
        have : (p.1, p.2) = p := rfl
        rw [this]; exact hp)
    have hi : p.1 ∈ sortedKeys data :=
      (sortedKeys_perm data).mem_iff.2 (List.mem_map.2 ⟨p, hp, rfl⟩)
    have hndk : (sortedKeys data).Nodup :=
      ((sortedKeys_perm data).symm.nodup hnd)
    rw [filter_tagged_flatMap _ _ hndk p.1 hi, hlk]
    simp only [Option.getD_some, List.map_map]
    rw [show (Prod.snd ∘ fun r => (p.1, r)) = id from rfl]
    exact List.map_id _
  · intro data' hperm
    have hne' : data' ≠ [] := by
      intro he
      subst he
      exact hne hperm.symm.eq_nil
    have hisEmpty' : ¬ data'.isEmpty = true := by
      cases data' with
      | nil => exact absurd rfl hne'
      | cons p ps => simp
    have hkeysperm : (data'.map Prod.fst).Perm (data.map Prod.fst) :=
      List.Perm.map _ hperm
    have hnd' : (data'.map Prod.fst).Nodup := hkeysperm.symm.nodup hnd
    have hkeys : sortedKeys data' = sortedKeys data := by
      refine List.eq_of_perm_of_sorted ?_ (sortedKeys_sorted data')
        (sortedKeys_sorted data)
      exact ((sortedKeys_perm data').trans hkeysperm).trans
        (sortedKeys_perm data).symm
    rw [aggregateOp, aggregateOp, if_neg hisEmpty, if_neg hisEmpty']
    congr 1
    rw [hkeys]
    congr 1
    refine flatMap_congr ?_
    intro i hi
    have himem : i ∈ data.map Prod.fst :=
      (sortedKeys_perm data).mem_iff.1 hi
    obtain ⟨q, hq, rfl⟩ := List.mem_map.1 himem
    have h1 : data.lookup q.1 = some q.2 :=
      lookup_eq_of_mem_nodup data q.1 q.2 hnd (by
        have : (q.1, q.2) = q := rfl
        rw [this]; exact hq)
    have h2 : data'.lookup q.1 = some q.2 :=
      lookup_eq_of_mem_nodup data' q.1 q.2 hnd' (by
        have : (q.1, q.2) = q := rfl
        rw [this]; exact hperm.mem_iff.2 hq)
    rw [h1, h2]

/-- C4, witness: two fragments given in unsorted enumeration order are
aggregated into a three-row table in sorted identifier order. -/
theorem aggregate_sorted_witness :
    ∃ t, aggregateOp [("S2", [mlstRow "7"]), ("S1", [mlstRow "15", mlstRow "3"])]
        = some t ∧
      t.indexName = "ID" ∧
      t.rows.length = ([("S2", [mlstRow "7"]),
        ("S1", [mlstRow "15", mlstRow "3"])].map
          (fun p => p.2.length)).sum ∧
      List.Sorted (· ≤ ·) (t.rows.map Prod.fst) ∧
      (∀ p ∈ [("S2", [mlstRow "7"]), ("S1", [mlstRow "15", mlstRow "3"])],
        (t.rows.filter (fun q => q.1 = p.1)).map Prod.snd = p.2) ∧
      (∀ data', data'.Perm [("S2", [mlstRow "7"]),
          ("S1", [mlstRow "15", mlstRow "3"])] →
        aggregateOp data'
          = aggregateOp [("S2", [mlstRow "7"]),
              ("S1", [mlstRow "15", mlstRow "3"])]) :=
  aggregate_sorted [("S2", [mlstRow "7"]), ("S1", [mlstRow "15", mlstRow "3"])]
    (by decide) (by decide)

mutual

theorem spec_empty_dict (key : String) :
    ∀ d, keyInDict key d = false → specOccurrences key d = []
  | [], _ => rfl
  | (k, v) :: rest, h => by
    rw [keyInDict] at h
    simp only [Bool.or_eq_false_iff] at h
    obtain ⟨⟨h1, h2⟩, h3⟩ := h
    rw [specOccurrences, if_neg (by simpa using h1), spec_empty_val key v h2,
      spec_empty_dict key rest h3, List.append_nil]

theorem spec_empty_val (key : String) :
    ∀ v, keyInVal key v = false → specSubVal key v = []
  | JValue.dict d, h => spec_empty_dict key d (by rwa [keyInVal] at h)
  | JValue.arr l, h => spec_empty_arr key l (by rwa [keyInVal] at h)
  | JValue.atom _, _ => rfl

theorem spec_empty_arr (key : String) :
    ∀ l, keyInArr key l = false → specSubArr key l = []
  | [], _ => rfl
  | x :: xs, h => by
    cases x with
    | dict d =>
      replace h : (keyInDict key d || keyInArr key xs) = false := h
      simp only [Bool.or_eq_false_iff] at h
      show specOccurrences key d ++ specSubArr key xs = []
      rw [spec_empty_dict key d h.1, spec_empty_arr key xs h.2]
      rfl
    | atom s =>
      replace h : (false || keyInArr key xs) = false := h
      simp only [Bool.false_or] at h
      show [] ++ specSubArr key xs = []
      rw [spec_empty_arr key xs h]
      rfl
    | arr l2 =>
      replace h : (false || keyInArr key xs) = false := h
      simp only [Bool.false_or] at h
      show [] ++ specSubArr key xs = []
      rw [spec_empty_arr key xs h]
      rfl

end

mutual

theorem subdictSpecAux_dict (key : String) :
    ∀ d, cleanDict key d = true → get_subdict key d = specOccurrences key d
  | [], _ => rfl
  | (k, v) :: rest, h => by
    rw [cleanDict] at h
    simp only [Bool.and_eq_true] at h
    obtain ⟨h1, h2⟩ := h
    rw [get_subdict, specOccurrences]
    by_cases hk : k = key
    · rw [if_pos hk, if_pos hk]
      rw [if_pos (beq_iff_eq.2 hk)] at h1
      rw [subdictSpecAux_dict key rest h2,
        spec_empty_val key v (by simpa using h1)]
    · rw [if_neg hk, if_neg hk]
      rw [if_neg (by simpa using hk)] at h1
      rw [subdictSpecAux_val key v h1, subdictSpecAux_dict key rest h2]

theorem subdictSpecAux_val (key : String) :
    ∀ v, cleanVal key v = true → subVal key v = specSubVal key v
  | JValue.dict d, h => subdictSpecAux_dict key d (by rwa [cleanVal] at h)
  | JValue.arr l, h => subdictSpecAux_arr key l (by rwa [cleanVal] at h)
  | JValue.atom _, _ => rfl

theorem subdictSpecAux_arr (key : String) :
    ∀ l, cleanArr key l = true → subArr key l = specSubArr key l
  | [], _ => rfl
  | x :: xs, h => by
    cases x with
    | dict d =>
      replace h : (cleanDict key d && cleanArr key xs) = true := h
      simp only [Bool.and_eq_true] at h
      show get_subdict key d ++ subArr key xs
        = specOccurrences key d ++ specSubArr key xs
      rw [subdictSpecAux_dict key d h.1, subdictSpecAux_arr key xs h.2]
    | atom s =>
      replace h : (true && cleanArr key xs) = true := h
      simp only [Bool.true_and] at h
      show [] ++ subArr key xs = [] ++ specSubArr key xs
      rw [subdictSpecAux_arr key xs h]
    | arr l2 =>
      replace h : (true && cleanArr key xs) = true := h
      simp only [Bool.true_and] at h
      show [] ++ subArr key xs = [] ++ specSubArr key xs
      rw [subdictSpecAux_arr key xs h]

end

/-- C9 (amended): when no occurrence of the target key is nested inside
the value of another occurrence, the recursive key-search yields exactly
the value of every occurrence of the key in the structure, in
depth-first encounter order (`specOccurrences`, stated from the spec's
words). Without that proviso the search does not descend into a matched
value, see the counterexample. -/
theorem subdict_eq_spec (key : String) (d : List (String × JValue))
    (h : cleanDict key d = true) :
    get_subdict key d = specOccurrences key d :=
  subdictSpecAux_dict key d h

/-- C9, counterexample: the structure `exC9` contains the key `a` at two
depths (two occurrences in the spec's depth-first reading,
`specOccurrences`), but `get_subdict` yields only one value — it does
not descend into the value of a matched key. -/
theorem C9_counterexample :
    (get_subdict "a" exC9).length = 1 ∧
    (specOccurrences "a" exC9).length = 2 :=
  ⟨rfl, rfl⟩

/-- C9, witness: on the three-depth structure the search equals the
spec's all-occurrences traversal and yields exactly three results in
depth-first encounter order. -/
theorem subdict_eq_spec_witness :
    get_subdict "lineage" exC9w = specOccurrences "lineage" exC9w ∧
    get_subdict "lineage" exC9w
      = [JValue.atom "L1", JValue.atom "L2", JValue.atom "L3"] :=
  ⟨subdict_eq_spec "lineage" exC9w rfl, rfl⟩

theorem mem_condFlags (s : CleanerSettings) (k : String) (tp : Rat × Row)
    (rest : List (Rat × Row)) : ∀ x ∈ condFlags s k tp rest, x = k := by
  intro x hx
  rw [condFlags] at hx
  rcases List.mem_append.1 hx with h | h
  · split at h
    · simpa using h
    · cases h
  · split at h
    · simpa using h
    · cases h

theorem any_contamination_iff (s : CleanerSettings)
    (rest : List (Rat × Row)) :
    (rest.any (fun p => s.contamination * 100 < p.1) = true)
      ↔ ∃ p ∈ rest, s.contamination * 100 < p.1 := by
  rw [List.any_eq_true]
  constructor
  · rintro ⟨p, hp, hlt⟩
    exact ⟨p, hp, by simpa using hlt⟩
  · rintro ⟨p, hp, hlt⟩
    exact ⟨p, hp, by simpa using hlt⟩

theorem mem_condFlags_iff (s : CleanerSettings) (k : String) (tp : Rat × Row)
    (rest : List (Rat × Row)) :
    k ∈ condFlags s k tp rest ↔
      (tp.1 < s.purity * 100 ∨ ∃ p ∈ rest, s.contamination * 100 < p.1) := by
  rw [condFlags, List.mem_append]
  by_cases ha : tp.1 < s.purity * 100
  · rw [if_pos ha]
    simp [ha]
  · rw [if_neg ha]
    by_cases hany : rest.any (fun p => s.contamination * 100 < p.1) = true
    · rw [if_pos hany]
      constructor
      · intro _
        exact Or.inr ((any_contamination_iff s rest).1 hany)
      · intro _
        simp
    · rw [if_neg hany]
      constructor
      · rintro (h | h) <;> cases h
      · rintro (h | h)
        · exact absurd h ha
        · exact absurd ((any_contamination_iff s rest).2 h) hany

theorem flagsFor_mem_eq (s : CleanerSettings) (k : String) (g : List Row)
    (fl : List String) (h : flagsFor s k g = some fl) :
    ∀ x ∈ fl, x = k := by
  intro x hx
  cases hn : nlargest3 (g.filter isSpeciesRow) with
  | none =>
    simp only [flagsFor, hn] at h
    exact Option.noConfusion h
  | some tops =>
    cases tops with
    | nil =>
      simp only [flagsFor, hn] at h
      exact Option.noConfusion h
    | cons tp rest =>
      cases hs : s.species with
      | none =>
        simp only [flagsFor, hn, hs, Option.some.injEq] at h
        subst h
        exact mem_condFlags s k tp rest x hx
      | some sp =>
        cases hm : speciesFlag sp tp.2 with
        | none =>
          simp only [flagsFor, hn, hs, hm] at h
          exact Option.noConfusion h
        | some m =>
          simp only [flagsFor, hn, hs, hm, Option.some.injEq] at h
          subst h
          rcases List.mem_append.1 hx with h1 | h1
          · exact mem_condFlags s k tp rest x h1
          · cases m with
            | true => simpa using h1
            | false => simp at h1

theorem flagsFor_self_mem_iff (s : CleanerSettings) (k : String)
    (g : List Row) (fl : List String) (h : flagsFor s k g = some fl) :
    (k ∈ fl ↔ FlagCond s g) := by
  cases hn : nlargest3 (g.filter isSpeciesRow) with
  | none =>
    simp only [flagsFor, hn] at h
    exact Option.noConfusion h
  | some tops =>
    cases tops with
    | nil =>
      simp only [flagsFor, hn] at h
      exact Option.noConfusion h
    | cons tp rest =>
      have hcondright : FlagCond s g ↔
          (tp.1 < s.purity * 100 ∨
           (∃ p ∈ rest, s.contamination * 100 < p.1) ∨
           (∃ sp, s.species = some sp ∧ speciesFlag sp tp.2 = some true)) := by
        rw [FlagCond]
        constructor
        · rintro ⟨tp', rest', he, hc⟩
          rw [hn] at he
          obtain ⟨he1, he2⟩ := List.cons.injEq .. ▸ Option.some.inj he
          subst he1
          subst he2
          exact hc
        · intro hc
          exact ⟨tp, rest, hn, hc⟩
      cases hs : s.species with
      | none =>
        simp only [flagsFor, hn, hs, Option.some.injEq] at h
        subst h
        rw [hcondright, mem_condFlags_iff]
        rw [hs]
        simp
      | some sp =>
        cases hm : speciesFlag sp tp.2 with
        | none =>
          simp only [flagsFor, hn, hs, hm] at h
          exact Option.noConfusion h
        | some m =>
          simp only [flagsFor, hn, hs, hm, Option.some.injEq] at h
          subst h
          cases m with
          | true =>
            constructor
            · intro _
              exact hcondright.2 (Or.inr (Or.inr ⟨sp, hs, hm⟩))
            · intro _
              exact List.mem_append.2 (Or.inr (by simp))
          | false =>
            rw [hcondright]
            constructor
            · intro hmem
              rcases List.mem_append.1 hmem with h1 | h1
              · rcases (mem_condFlags_iff s k tp rest).1 h1 with h2 | h2
                · exact Or.inl h2
                · exact Or.inr (Or.inl h2)
              · simp at h1
            · rintro (h1 | h1 | ⟨sp', hsp', htrue⟩)
              · exact List.mem_append.2
                  (Or.inl ((mem_condFlags_iff s k tp rest).2 (Or.inl h1)))
              · exact List.mem_append.2
                  (Or.inl ((mem_condFlags_iff s k tp rest).2 (Or.inr h1)))
              · rw [hs] at hsp'
                cases Option.some.inj hsp'
                rw [hm] at htrue
                simp at htrue

theorem collectFlags_mem (s : CleanerSettings) (t : Table) :
    ∀ ks l0, collectFlags s t ks = some l0 →
      ∀ x, (x ∈ l0 ↔
        ∃ k ∈ ks, ∃ fl, flagsFor s k (sampleGroup t k) = some fl ∧ x ∈ fl) := by
  intro ks
  induction ks with
  | nil =>
    intro l0 h x
    simp only [collectFlags, Option.some.injEq] at h
    subst h
    simp
  | cons k ks ih =>
    intro l0 h x
    cases hf : flagsFor s k (sampleGroup t k) with
    | none =>
      simp only [collectFlags, hf] at h
      exact Option.noConfusion h
    | some fl =>
      cases hr : collectFlags s t ks with
      | none =>
        simp only [collectFlags, hf, hr] at h
        exact Option.noConfusion h
      | some rem =>
        simp only [collectFlags, hf, hr, Option.some.injEq] at h
        subst h
        rw [List.mem_append, ih rem hr x]
        constructor
        · rintro (h1 | ⟨j, hj, fl', hfl', hx⟩)
          · exact ⟨k, List.mem_cons_self k ks, fl, hf, h1⟩
          · exact ⟨j, List.mem_cons_of_mem _ hj, fl', hfl', hx⟩
        · rintro ⟨j, hj, fl', hfl', hx⟩
          cases List.mem_cons.1 hj with
          | inl he =>
            subst he
            rw [hf] at hfl'
            cases Option.some.inj hfl'
            exact Or.inl hx
          | inr he => exact Or.inr ⟨j, he, fl', hfl', hx⟩

theorem collectFlags_sub_some (s : CleanerSettings) (t : Table) :
    ∀ ks l0, collectFlags s t ks = some l0 →
      ∀ k ∈ ks, ∃ fl, flagsFor s k (sampleGroup t k) = some fl := by
  intro ks
  induction ks with
  | nil => intro l0 _ k hk; cases hk
  | cons j ks ih =>
    intro l0 h k hk
    cases hf : flagsFor s j (sampleGroup t j) with
    | none =>
      simp only [collectFlags, hf] at h
      exact Option.noConfusion h
    | some fl =>
      cases hr : collectFlags s t ks with
      | none =>
        simp only [collectFlags, hf, hr] at h
        exact Option.noConfusion h
      | some rem =>
        cases List.mem_cons.1 hk with
        | inl he => subst he; exact ⟨fl, hf⟩
        | inr he => exact ih rem hr k he

theorem collectFlags_all_nil (s : CleanerSettings) (t : Table) :
    ∀ ks, (∀ k ∈ ks, flagsFor s k (sampleGroup t k) = some []) →
      collectFlags s t ks = some [] := by
  intro ks
  induction ks with
  | nil => intro _; rfl
  | cons k ks ih =>
    intro h
    have hk := h k (List.mem_cons_self k ks)
    have hr := ih (fun j hj => h j (List.mem_cons_of_mem _ hj))
    simp only [collectFlags, hk, hr]
    rfl

theorem mem_groupKeys (t : Table) (x : String) :
    x ∈ groupKeys t ↔ x ∈ t.index := by
  rw [groupKeys, (List.perm_insertionSort _ _).mem_iff, mem_uniqueList]

/-- C1: whenever `clean_kraken` returns a removal list, an identifier is
in the list precisely when it indexes some row of the classification
table and its sample group — restricted to species-rank rows and reduced
to the 3 rows of largest percent — triggers the purity, contamination or
required-species condition; and every listed identifier appears exactly
once, even when several conditions flag it. -/
theorem clean_kraken_spec (s : CleanerSettings) (t : Table) (l : List String)
    (h : clean_kraken s t = some l) :
    (∀ x, x ∈ l ↔ x ∈ t.index ∧ FlagCond s (sampleGroup t x)) ∧
    ∀ x ∈ l, l.count x = 1 := by
  rw [clean_kraken] at h
  cases hc : collectFlags s t (groupKeys t) with
  | none => rw [hc] at h; cases h
  | some l0 =>
    rw [hc, Option.map_some'] at h
    have hl : l = uniqueList l0 := (Option.some.inj h).symm
    subst hl
    constructor
    · intro x
      rw [mem_uniqueList, collectFlags_mem s t _ l0 hc x]
      constructor
      · rintro ⟨k, hk, fl, hfl, hx⟩
        have hxk := flagsFor_mem_eq s k _ fl hfl x hx
        subst hxk
        exact ⟨(mem_groupKeys t x).1 hk,
          (flagsFor_self_mem_iff s x _ fl hfl).1 hx⟩
      · rintro ⟨hidx, hcond⟩
        have hk : x ∈ groupKeys t := (mem_groupKeys t x).2 hidx
        obtain ⟨fl, hfl⟩ := collectFlags_sub_some s t _ l0 hc x hk
        exact ⟨x, hk, fl, hfl,
          (flagsFor_self_mem_iff s x _ fl hfl).2 hcond⟩
    · intro x hx
      exact count_uniqueList_of_mem hx

/-- C1, witness: on a table with two singleton sample groups at the
species rank — percents 70 and 85 — and the default thresholds
(purity 0.8, contamination 0.02, no required species), exactly `S1`
(the 70% sample) is flagged, and it is flagged once. -/
theorem clean_kraken_spec_witness :
    (∀ x, x ∈ (["S1"] : List String) ↔
      x ∈ tC1.index ∧ FlagCond defaultSettings (sampleGroup tC1 x)) ∧
    ∀ x ∈ (["S1"] : List String), (["S1"] : List String).count x = 1 :=
  clean_kraken_spec defaultSettings tC1 ["S1"] (by
    have h1 : ¬ ((85 : Rat) < 8 / 10 * 100) := by norm_num
    have h2 : ((70 : Rat) < 8 / 10 * 100) := by norm_num
    simp [clean_kraken, collectFlags, groupKeys, Table.index, uniqueList,
      uniqueAux, flagsFor, sampleGroup, nlargest3, percentPairs,
      isSpeciesRow, percentOf, getCell, tC1, krakenRow, condFlags,
      defaultSettings, List.insertionSort, List.orderedInsert,
      List.lookup, h1, h2])

/-- C8 [code_bug evaluation]: on a table whose only sample group is
non-empty but has no species-rank row, `clean_kraken` fails for every
setting of the thresholds — the embedded `none` models the `IndexError`
raised by `g['percent'].iloc[0]` on the group left empty by the
`level == "S"` restriction. The guard `if not g.empty` in the source
shows the intent of skipping empty groups, but it runs before the
restriction (where a groupby group is never empty), so the spec's
"an empty per-sample group contributes no flag" is not what the code
does. -/
theorem clean_kraken_crash_on_rankless_group (s : CleanerSettings) :
    clean_kraken s tC8 = none := rfl

theorem dropRows_nil (t : Table) : dropRows t [] = t := by
  rw [dropRows]
  have h : t.rows.filter (fun r => r.1 ∉ ([] : List String)) = t.rows :=
    List.filter_eq_self.2 (fun r _ => by simp)
  rw [h]

theorem mapVals_id_of (f : String → Table → Table) (c : Container)
    (h : ∀ p ∈ c, f p.1 p.2 = p.2) : mapVals f c = c := by
  induction c with
  | nil => rfl
  | cons p ps ih =>
    rw [mapVals, List.map_cons, h p (List.mem_cons_self p ps)]
    rw [mapVals] at ih
    rw [ih (fun q hq => h q (List.mem_cons_of_mem _ hq))]

theorem setAttr_not_mem (c : Container) (a : String) (t : Table)
    (h : a ∉ c.map Prod.fst) : setAttr c a t = c := by
  refine mapVals_id_of _ c ?_
  intro p hp
  have hne : p.1 ≠ a := fun he => h (List.mem_map.2 ⟨p, hp, he⟩)
  rw [if_neg hne]

theorem update_iid_first (u : Table) (rest : Container)
    (hnd : "iid" ∉ rest.map Prod.fst) :
    update_iid (("iid", u) :: rest)
      = ("iid", iidTable (allIids (("iid", u) :: rest))) :: rest := by
  rw [update_iid, setAttr, mapVals, List.map_cons]
  simp only [if_pos rfl]
  congr 1
  have h := setAttr_not_mem rest "iid"
    (iidTable (allIids (("iid", u) :: rest))) hnd
  rw [setAttr, mapVals] at h
  exact h

theorem nodup_allIids (c : Container) : (allIids c).Nodup :=
  nodup_uniqueList _

theorem allIids_cons_iid (T : Table) (rest : Container) :
    allIids (("iid", T) :: rest)
      = uniqueList (T.indexUnique ++ rest.flatMap (fun p => p.2.indexUnique)) := by
  rw [allIids, List.flatMap_cons]

theorem update_iid_idem (u : Table) (rest : Container)
    (hnd : "iid" ∉ rest.map Prod.fst) :
    update_iid (update_iid (("iid", u) :: rest))
      = update_iid (("iid", u) :: rest) := by
  rw [update_iid_first u rest hnd,
    update_iid_first (iidTable (allIids (("iid", u) :: rest))) rest hnd]
  have hU : allIids (("iid", iidTable (allIids (("iid", u) :: rest))) :: rest)
      = allIids (("iid", u) :: rest) := by
    rw [allIids_cons_iid]
    have hidx : (iidTable (allIids (("iid", u) :: rest))).indexUnique
        = allIids (("iid", u) :: rest) := by
      rw [Table.indexUnique, index_iidTable]
      exact uniqueList_eq_self (nodup_allIids _)
    rw [hidx]
    refine uniqueList_append_of_subset (nodup_allIids _) ?_
    intro x hx
    rw [allIids_cons_iid, mem_uniqueList]
    exact List.mem_append.2 (Or.inr hx)
  rw [hU]

theorem mem_index_dropRows (t : Table) (l : List String) (x : String) :
    x ∈ (dropRows t l).index ↔ x ∈ t.index ∧ x ∉ l := by
  rw [dropRows, Table.index, Table.index]
  constructor
  · intro hx
    obtain ⟨r, hr, rfl⟩ := List.mem_map.1 hx
    have h1 := List.mem_of_mem_filter hr
    have h2 := List.of_mem_filter hr
    simp only [decide_not, Bool.not_eq_eq_eq_not, Bool.not_true,
      decide_eq_false_iff_not] at h2
    exact ⟨List.mem_map.2 ⟨r, h1, rfl⟩, h2⟩
  · rintro ⟨h1, h2⟩
    obtain ⟨r, hr, rfl⟩ := List.mem_map.1 h1
    refine List.mem_map.2 ⟨r, List.mem_filter.2 ⟨hr, ?_⟩, rfl⟩
    simp only [decide_not, Bool.not_eq_eq_eq_not, Bool.not_true,
      decide_eq_false_iff_not]
    exact h2

theorem nodup_groupKeys (t : Table) : (groupKeys t).Nodup :=
  (List.perm_insertionSort _ _).symm.nodup (nodup_uniqueList _)

theorem sorted_groupKeys (t : Table) :
    List.Sorted (fun a b => a ≤ b) (groupKeys t) :=
  List.sorted_insertionSort _ _

theorem sampleGroup_dropRows (t : Table) (l : List String) (k : String)
    (hk : k ∉ l) : sampleGroup (dropRows t l) k = sampleGroup t k := by
  rw [sampleGroup, sampleGroup, dropRows]
  congr 1
  rw [List.filter_filter]
  refine List.filter_congr ?_
  intro r _
  by_cases he : r.1 = k
  · rw [he]
    simp [hk]
  · simp [he]

theorem groupKeys_dropRows (t : Table) (l : List String) :
    groupKeys (dropRows t l) = (groupKeys t).filter (fun k => k ∉ l) := by
  refine List.eq_of_perm_of_sorted ?_ (sorted_groupKeys _)
    (List.Pairwise.filter _ (sorted_groupKeys t))
  refine (List.perm_ext_iff_of_nodup (nodup_groupKeys _)
    ((nodup_groupKeys t).filter _)).2 ?_
  intro x
  rw [mem_groupKeys, mem_index_dropRows, List.mem_filter, mem_groupKeys]
  simp

theorem flags_nil_of_not_flagged (s : CleanerSettings) (t : Table)
    (l : List String) (h : clean_kraken s t = some l) (k : String)
    (hk : k ∈ groupKeys t) (hkl : k ∉ l) :
    flagsFor s k (sampleGroup t k) = some [] := by
  rw [clean_kraken] at h
  cases hc : collectFlags s t (groupKeys t) with
  | none => rw [hc] at h; cases h
  | some l0 =>
    rw [hc, Option.map_some'] at h
    have hl : l = uniqueList l0 := (Option.some.inj h).symm
    obtain ⟨fl, hfl⟩ := collectFlags_sub_some s t _ l0 hc k hk
    cases fl with
    | nil => exact hfl
    | cons x xs =>
      exfalso
      have hx : x ∈ x :: xs := List.mem_cons_self x xs
      have hxk : x = k := flagsFor_mem_eq s k _ _ hfl x hx
      subst hxk
      have hmem : x ∈ l0 :=
        (collectFlags_mem s t _ l0 hc x).2 ⟨x, hk, _, hfl, hx⟩
      exact hkl (hl ▸ (mem_uniqueList l0 x).2 hmem)

theorem clean_kraken_dropped (s : CleanerSettings) (t : Table)
    (l : List String) (h : clean_kraken s t = some l) :
    clean_kraken s (dropRows t l) = some [] := by
  rw [clean_kraken, groupKeys_dropRows]
  have hall : ∀ k ∈ (groupKeys t).filter (fun k => k ∉ l),
      flagsFor s k (sampleGroup (dropRows t l) k) = some [] := by
    intro k hk
    have hkg : k ∈ groupKeys t := List.mem_of_mem_filter hk
    have hknl : k ∉ l := by
      have h2 := List.of_mem_filter hk
      simpa using h2
    rw [sampleGroup_dropRows t l k hknl]
    exact flags_nil_of_not_flagged s t l h k hkg hknl
  rw [collectFlags_all_nil s (dropRows t l) _ hall]
  rfl

theorem lookup_all_nil (rd : RemovalSet) (h : ∀ q ∈ rd, q.2 = [])
    (a : String) (ids : List String) (hl : rd.lookup a = some ids) :
    ids = [] := by
  induction rd with
  | nil => cases hl
  | cons q qs ih =>
    obtain ⟨k, v⟩ := q
    rw [List.lookup_cons] at hl
    cases hak : (a == k) with
    | true =>
      rw [hak] at hl
      have hv : v = [] := h (k, v) (List.mem_cons_self _ _)
      rw [← Option.some.inj hl, hv]
    | false =>
      rw [hak] at hl
      exact ih (fun q hq => h q (List.mem_cons_of_mem _ hq)) hl

theorem clean_mlst_dropped (s : CleanerSettings) (tm : Table) :
    clean_mlst s (dropRows tm (clean_mlst s tm)) = [] := by
  by_cases hcl : s.complete_lineage
  · rw [clean_mlst, if_pos hcl]
    suffices hnil : ((dropRows tm (clean_mlst s tm)).rows.filter
        (fun r => decide (getCell r.2 "sequence_type"
          = some (Value.vstr "-")))) = [] by
      rw [hnil]
      rfl
    rw [dropRows]
    refine List.filter_eq_nil_iff.2 ?_
    intro r hr
    have hrmem := List.mem_of_mem_filter hr
    have hrkeep := List.of_mem_filter hr
    simp only [decide_not, Bool.not_eq_eq_eq_not, Bool.not_true,
      decide_eq_false_iff_not] at hrkeep
    simp only [decide_eq_true_eq]
    intro hseq
    apply hrkeep
    rw [clean_mlst, if_pos hcl]
    exact List.mem_map.2 ⟨r, List.mem_filter.2 ⟨hrmem, by simp [hseq]⟩, rfl⟩
  · rw [clean_mlst, if_neg hcl]

theorem surveyRd_all_nil : ∀ q ∈ surveyRd [] [], q.2 = [] := by
  decide

/-- C7: applying the survey quality filter twice is idempotent — the
second application's removal lists are all empty, it removes no row from
any table, and the container is unchanged: identifiers removed by the
first pass are already absent from the tables the second pass inspects.
The container is taken in `SurveyData` shape: the `iid` slot first and
no duplicate attribute names. -/
theorem surveyClean_idempotent (s : CleanerSettings) (u : Table)
    (rest : Container)
    (hnd : ((("iid", u) :: rest).map Prod.fst).Nodup)
    (c' : Container)
    (h : surveyClean s (("iid", u) :: rest) = some c') :
    surveyClean s c' = some c' := by
  cases hkk : (("iid", u) :: rest : Container).lookup "kraken" with
  | none =>
    simp only [surveyClean, surveyRemovalSet, hkk] at h
    exact Option.noConfusion h
  | some tk =>
  cases hmm2 : (("iid", u) :: rest : Container).lookup "mlst" with
  | none =>
    simp only [surveyClean, surveyRemovalSet, hkk, hmm2] at h
    exact Option.noConfusion h
  | some tm =>
  cases hck : clean_kraken s tk with
  | none =>
    simp only [surveyClean, surveyRemovalSet, hkk, hmm2, hck,
      Option.map_none'] at h
    exact Option.noConfusion h
  | some kl =>
  simp only [surveyClean, surveyRemovalSet, hkk, hmm2, hck,
    Option.map_some', Option.some.injEq] at h
  have hkne : ("kraken" : String) ≠ "iid" := by decide
  have hmne : ("mlst" : String) ≠ "iid" := by decide
  have hc'k : c'.lookup "kraken" = some (dropRows tk kl) := by
    rw [← h, removeOp, lookup_update_iid_ne _ _ hkne, lookup_mapVals, hkk,
      Option.map_some']
    rfl
  have hc'm : c'.lookup "mlst"
      = some (dropRows tm (clean_mlst s tm)) := by
    rw [← h, removeOp, lookup_update_iid_ne _ _ hmne, lookup_mapVals, hmm2,
      Option.map_some']
    rfl
  have hck' : clean_kraken s (dropRows tk kl) = some [] :=
    clean_kraken_dropped s tk kl hck
  have hml' : clean_mlst s (dropRows tm (clean_mlst s tm)) = [] :=
    clean_mlst_dropped s tm
  have hiidrest : "iid" ∉ rest.map Prod.fst := (List.nodup_cons.1 hnd).1
  have hc1 : mapVals (removedTable (surveyRd kl (clean_mlst s tm)) false)
      (("iid", u) :: rest)
      = ("iid", u) :: mapVals
          (removedTable (surveyRd kl (clean_mlst s tm)) false) rest := by
    rw [mapVals, List.map_cons]
    rfl
  have hiidrest1 : "iid" ∉ (mapVals
      (removedTable (surveyRd kl (clean_mlst s tm)) false) rest).map
        Prod.fst := by
    rw [keys_mapVals]
    exact hiidrest
  have hc'form : c' = update_iid (("iid", u) :: mapVals
      (removedTable (surveyRd kl (clean_mlst s tm)) false) rest) := by
    rw [← h, removeOp, hc1]
  have hupd : update_iid c' = c' := by
    rw [hc'form, update_iid_idem u _ hiidrest1]
  have hid : mapVals (removedTable (surveyRd [] []) false) c' = c' := by
    refine mapVals_id_of _ c' ?_
    intro p _
    rw [removedTable]
    cases hq : (surveyRd [] []).lookup p.1 with
    | none => rfl
    | some ids =>
      rw [lookup_all_nil (surveyRd [] []) surveyRd_all_nil p.1 ids hq]
      simp only [Bool.false_eq_true, if_neg (by decide : ¬ False)]
      exact dropRows_nil p.2
  simp only [surveyClean, surveyRemovalSet, hc'k, hc'm, hck', hml',
    Option.map_some', Option.some.injEq]
  rw [removeOp, hid, hupd]

/-- C7, witness: one pass of the cleaner over the concrete container
removes the unresolved-lineage sample; the second pass removes nothing
and returns the container unchanged. -/
theorem surveyClean_idempotent_witness :
    surveyClean defaultSettings cC7res = some cC7res :=
  surveyClean_idempotent defaultSettings (iidTable ["S1", "S2"]) restC7
    (by decide) cC7res (by decide)

/-- C5, witness: the drop and keep modes evaluated on the concrete
container at kind `mlst` with removal list `["S1"]`. -/
theorem remove_semantics_witness :
    (removeOp cC2 [("mlst", ["S1"])] false).lookup "mlst"
        = some { cols := ["sequence_type"],
                 rows := List.filter (fun r => r.1 ∉ (["S1"] : List String))
                   [("S1", mlstRow "15")] } ∧
    (removeOp cC2 [("mlst", ["S1"])] true).lookup "mlst"
        = some { cols := ["sequence_type"],
                 rows := List.filter (fun r => r.1 ∈ (["S1"] : List String))
                   [("S1", mlstRow "15")] } :=
  (remove_semantics cC2 [("mlst", ["S1"])] "mlst"
      { cols := ["sequence_type"], rows := [("S1", mlstRow "15")] }
      (by decide) (by decide)).1 ["S1"] (by decide)

end Pathfinder
